import Mathlib

/-!
Shallow embedding of `src/utils/utils_greedy_bfs.py` (topologiq) and proofs
about its specification claims.

Conventions used throughout:
* Python `int` is modelled as `Int`, Python 3-tuples of ints as `Int × Int × Int`.
* Python lists are Lean `List`s; iteration order is preserved.
* Python `set` objects are modelled as duplicate-free `List`s built with
  `setAdd` (adding an element that is already present leaves the list
  unchanged); membership and cardinality of the model agree with the Python
  set, only the (unspecified) iteration order is fixed to insertion order.
* Functions that can raise in Python return `Option` here, with `none` for an
  uncaught exception.
-/

set_option maxRecDepth 10000

/-- Modelled from the spec: `StandardCoord` comes from `utils/classes.py`,
which is not part of the sources; the spec describes it as an integer triple
(x, y, z). -/
abbrev StandardCoord := Int × Int × Int

/-- Modelled from the spec: `StandardBlock` comes from `utils/classes.py`,
which is not part of the sources; the spec describes a path node as a
(Coordinate, Kind) pair. -/
abbrev StandardBlock := StandardCoord × String

/-- Modelled from the spec: `StandardBeam` comes from `utils/classes.py`,
which is not part of the sources; the spec describes a Beam as an ordered
sequence of Coordinates. -/
abbrev StandardBeam := List StandardCoord

/-- Modelled from the spec: `NodeBeams` comes from `utils/classes.py`, which
is not part of the sources; the spec describes it as the collection of Beams
emanating from one block/pipe. -/
abbrev NodeBeams := List StandardBeam

/-! ## `is_move_allowed` (lines 149-167) -/

/-- Manhattan distance
`abs(nx - sx) + abs(ny - sy) + abs(nz - sz)` (line 166).  Python `abs` of an
int is a non-negative int, so the sum is modelled as a `Nat`. -/
def manhattanDistance (s n : StandardCoord) : Nat :=
  (n.1 - s.1).natAbs + (n.2.1 - s.2.1).natAbs + (n.2.2 - s.2.2).natAbs

/-- `is_move_allowed` (lines 149-167): `manhattan_distance % 3 == 0`. -/
def is_move_allowed (source_coords next_coords : StandardCoord) : Bool :=
  manhattanDistance source_coords next_coords % 3 == 0

/-! ## `check_unobstructed` (lines 51-92) -/

/-- Normalisation of a single displacement component to a unit step
(line 77: `1 if d > 0 else -1 if d < 0 else 0`). -/
def signDir (d : Int) : Int :=
  if d > 0 then 1 else if d < 0 then -1 else 0

/-- The beam synthesised by `check_unobstructed` (lines 74-83): the cells
`source + i * direction` for `i = 1 .. length_of_beams - 1`
(`for i in range(1, length_of_beams)`). -/
def synthBeam (source_coord target_coord : StandardCoord) (length_of_beams : Int) :
    StandardBeam :=
  let dx := signDir (target_coord.1 - source_coord.1)
  let dy := signDir (target_coord.2.1 - source_coord.2.1)
  let dz := signDir (target_coord.2.2 - source_coord.2.2)
  (List.range (length_of_beams - 1).toNat).map (fun k =>
    let i : Int := (k : Int) + 1
    (source_coord.1 + dx * i, source_coord.2.1 + dy * i, source_coord.2.2 + dz * i))

/-- Python equality between a coordinate (a 3-tuple of ints) and an element of
`all_beams` (a `NodeBeams`, i.e. a list of beams).  In Python, `==` between a
tuple and a list is always `False`, whatever their contents, so the
membership test `coord in all_beams` on line 89 can never succeed: `in`
compares `coord` with each element of `all_beams` using `==`, and every such
element is a list. -/
def pyCoordEqNodeBeams (_ : StandardCoord) (_ : NodeBeams) : Bool := false

/-- The test `coord in all_beams` of line 89, under the declared type
`all_beams : List[NodeBeams]` (line 55). -/
def coordInAllBeams (coord : StandardCoord) (all_beams : List NodeBeams) : Bool :=
  all_beams.any (fun nb => pyCoordEqNodeBeams coord nb)

/-- `check_unobstructed` (lines 51-92).  Synthesise the beam, short-circuit to
unobstructed when `occupied` is empty (lines 85-86), otherwise scan the beam
cells and report obstructed as soon as one is in `occupied` or `in all_beams`
(lines 88-90); the early-returning loop is equivalent to `List.any`. -/
def check_unobstructed (source_coord target_coord : StandardCoord)
    (occupied : List StandardCoord) (all_beams : List NodeBeams)
    (length_of_beams : Int) : Bool × StandardBeam :=
  let single_beam_for_exit := synthBeam source_coord target_coord length_of_beams
  if occupied = [] then
    (true, single_beam_for_exit)
  else if single_beam_for_exit.any
      (fun coord => occupied.contains coord || coordInAllBeams coord all_beams) then
    (false, single_beam_for_exit)
  else
    (true, single_beam_for_exit)

/-- Membership of a coordinate in some individual beam contained in
`all_beams` — what the spec sentence for C1 asks the obstruction check to
detect. -/
def insideSomeBeam (coord : StandardCoord) (all_beams : List NodeBeams) : Prop :=
  ∃ nb ∈ all_beams, ∃ b ∈ nb, coord ∈ b

/-! ## Claim C5 -/

/-- C5: `check_unobstructed` called with an empty occupied list returns the
verdict `true` (unobstructed) for every source, target, beam collection and
beam length, even when synthesized cells would lie inside beams of
`all_beams`. -/
theorem c5_empty_occupied_unobstructed (source_coord target_coord : StandardCoord)
    (all_beams : List NodeBeams) (length_of_beams : Int) :
    (check_unobstructed source_coord target_coord [] all_beams length_of_beams).1 = true := by
  rfl

/-! ## Claim C1 -/

/-- C1: evaluation of `check_unobstructed` at a failing input.  With
`source = (0,0,0)`, `target = (1,0,0)`, `occupied = [(9,9,9)]` (non-empty),
`all_beams = [[[(1,0,0),(2,0,0)]]]` and `beam_length = 3`, the synthesized
cell `(1,0,0)` lies inside a beam contained in `all_beams`, so the claim
(and the spec) require the verdict `false`; the code nevertheless returns
`true`, because the membership test `coord in all_beams` of line 89 compares
a coordinate tuple with whole `NodeBeams` lists and can never succeed. -/
theorem c1_beam_obstruction_missed :
    check_unobstructed (0, 0, 0) (1, 0, 0) [(9, 9, 9)] [[[(1, 0, 0), (2, 0, 0)]]] 3
      = (true, [(1, 0, 0), (2, 0, 0)])
    ∧ insideSomeBeam (1, 0, 0) [[[(1, 0, 0), (2, 0, 0)]]]
    ∧ ((9, 9, 9) : StandardCoord) ∉ ([(1, 0, 0), (2, 0, 0)] : List StandardCoord) := by
  refine ⟨by decide, ⟨[[(1, 0, 0), (2, 0, 0)]], by decide, [(1, 0, 0), (2, 0, 0)], by decide, by decide⟩, by decide⟩

/-! ## Claim C3 -/

/-- C3 counterexample: the claim says `is_move_allowed` returns `false` when
source equals target (distance 0 is not a *positive* multiple of 3), but the
code returns `true` there: `0 % 3 == 0`. -/
theorem c3_zero_distance_allowed :
    is_move_allowed (0, 0, 0) (0, 0, 0) = true
    ∧ manhattanDistance (0, 0, 0) (0, 0, 0) = 0 := by
  decide

/-- C3 (amended): `is_move_allowed source target` is `true` iff the Manhattan
distance between them is a multiple of 3 — including distance 0, i.e. the
positivity requirement of the original claim is dropped. -/
theorem c3_move_allowed_iff_multiple_of_three (source_coords next_coords : StandardCoord) :
    is_move_allowed source_coords next_coords = true
      ↔ manhattanDistance source_coords next_coords % 3 = 0 := by
  simp [is_move_allowed]

/-! ## `generate_tentative_target_positions` (lines 170-286) -/

/-- Python `set.add`, modelled on insertion-ordered duplicate-free lists:
adding an element that is already present leaves the list unchanged. -/
def setAdd (c : StandardCoord) (l : List StandardCoord) : List StandardCoord :=
  if c ∈ l then l else l ++ [c]

/-- The `targets` list of the `step == 3` branch (lines 193-200). -/
def stepThreeTargets (s : StandardCoord) : List StandardCoord :=
  [(s.1 + 3, s.2.1, s.2.2), (s.1 - 3, s.2.1, s.2.2),
   (s.1, s.2.1 + 3, s.2.2), (s.1, s.2.1 - 3, s.2.2),
   (s.1, s.2.1, s.2.2 + 3), (s.1, s.2.1, s.2.2 - 3)]

/-- The `targets` set of the `step == 6` branch (lines 207-216), mirroring the
source's loop nesting exactly: the xz- and yz-loops are nested inside the
outer `for dx in [-3, 3]` loop (and the inner `for dx` shadows the outer
variable, here `dx2`), so their additions are performed once per outer
iteration. -/
def stepSixTargets (s : StandardCoord) : List StandardCoord :=
  List.foldl (fun t dx =>
    let t := List.foldl (fun t dy => setAdd (s.1 + dx, s.2.1 + dy, s.2.2) t) t
      ([-3, 3] : List Int)
    let t := List.foldl (fun t dx2 =>
      List.foldl (fun t dz => setAdd (s.1 + dx2, s.2.1, s.2.2 + dz) t) t
        ([-3, 3] : List Int)) t ([-3, 3] : List Int)
    List.foldl (fun t dy =>
      List.foldl (fun t dz => setAdd (s.1, s.2.1 + dy, s.2.2 + dz) t) t
        ([-3, 3] : List Int)) t ([-3, 3] : List Int))
    [] ([-3, 3] : List Int)

/-- The `targets` set of the `step == 9` branch (lines 223-228). -/
def stepNineTargets (s : StandardCoord) : List StandardCoord :=
  List.foldl (fun t dx =>
    List.foldl (fun t dy =>
      List.foldl (fun t dz =>
        if dx.natAbs + dy.natAbs + dz.natAbs = 9 then
          setAdd (s.1 + dx, s.2.1 + dy, s.2.2 + dz) t
        else t) t ([-3, 3] : List Int)) t ([-3, 3] : List Int))
    [] ([-3, 3] : List Int)

/-- Python `range(lo, hi, 3)` as a list of ints (`-(hi-lo+2)//3`-style count:
`max 0 ⌈(hi-lo)/3⌉` elements `lo, lo+3, ...`). -/
def pyRange3 (lo hi : Int) : List Int :=
  (List.range (((hi - lo) + 2) / 3).toNat).map (fun k => lo + 3 * (k : Int))

/-- `random.choice(l)` modelled by an externally supplied random value `r`,
reduced modulo the length so that any stream of naturals denotes a genuine
element of the (never empty at its call sites) list. -/
def pyChoice (l : List Int) (r : Nat) : Int :=
  l.getD (r % l.length) 0

/-- `abs(mx) + abs(my) + abs(mz)` for a move triple. -/
def absSum (m : Int × Int × Int) : Int :=
  (m.1.natAbs : Int) + (m.2.1.natAbs : Int) + (m.2.2.natAbs : Int)

/-- One guarded `valid_targets.add(...)` of the `step > 9` branch
(lines 258-262 for the original split, lines 274-280 for each permutation):
the candidate is added iff the absolute components sum to exactly `step` and
the coordinate is not occupied. -/
def permAdd (s : StandardCoord) (step : Int) (occupied : List StandardCoord)
    (m : Int × Int × Int) (acc : List StandardCoord) : List StandardCoord :=
  if absSum m = step ∧ (s.1 + m.1, s.2.1 + m.2.1, s.2.2 + m.2.2) ∉ occupied then
    setAdd (s.1 + m.1, s.2.1 + m.2.1, s.2.2 + m.2.2) acc
  else acc

/-- The `permutations` list of lines 265-272 for a move triple
`(move_x, move_y, move_z)`. -/
def movePerms (m : Int × Int × Int) : List (Int × Int × Int) :=
  [(m.1, m.2.1, m.2.2), (m.1, m.2.2, m.2.1), (m.2.1, m.1, m.2.2),
   (m.2.1, m.2.2, m.1), (m.2.2, m.1, m.2.1), (m.2.2, m.2.1, m.1)]

/-- The additions performed by one attempt once the move triple `m` is drawn:
the original split is added under its guard (lines 258-262), then each of the
6 permutations under the same kind of guard (lines 274-280).  Note the first
entry of `movePerms m` is `m` itself, so the original split is examined
twice, exactly as in the source. -/
def attemptCore (s : StandardCoord) (step : Int) (occupied : List StandardCoord)
    (m : Int × Int × Int) (acc : List StandardCoord) : List StandardCoord :=
  List.foldl (fun a m' => permAdd s step occupied m' a)
    (permAdd s step occupied m acc) (movePerms m)

/-- One iteration of the `while` loop of the `step > 9` branch
(lines 239-282): draw `move_x` and `move_y` with `random.choice`, assign the
remaining budget to `move_z`, then perform the guarded additions. -/
def attemptBody (s : StandardCoord) (step : Int) (occupied : List StandardCoord)
    (r1 r2 : Nat) (acc : List StandardCoord) : List StandardCoord :=
  let mx := pyChoice (pyRange3 (-step) (step + 1)) r1
  let rem1 := step - (mx.natAbs : Int)
  let my := pyChoice (pyRange3 (-rem1) (rem1 + 1)) r2
  let mz := rem1 - (my.natAbs : Int)
  attemptCore s step occupied (mx, my, mz) acc

/-- The `while len(valid_targets) < 12 and attempts < max_attempts` loop
(line 238), with `fuel = max_attempts - attempts` as the structural measure
and the pair of random draws per attempt taken from the stream `rand` at
positions `ridx`, `ridx + 1`.  Returns the accumulated set together with the
number of attempts performed. -/
def randomLoop (s : StandardCoord) (step : Int) (occupied : List StandardCoord)
    (rand : Nat → Nat) : Nat → Nat → List StandardCoord → Nat →
    List StandardCoord × Nat
  | 0, _, acc, att => (acc, att)
  | fuel + 1, ridx, acc, att =>
    if acc.length < 12 then
      randomLoop s step occupied rand fuel (ridx + 2)
        (attemptBody s step occupied (rand ridx) (rand (ridx + 1)) acc) (att + 1)
    else (acc, att)

/-- `generate_tentative_target_positions` (lines 170-286).  The branches on
`step` mirror lines 192, 206, 222 and 234; the final `else` leaves
`potential_targets` empty. -/
def generate_tentative_target_positions (source_coords : StandardCoord) (step : Int)
    (occupied_coords : List StandardCoord) (rand : Nat → Nat) : List StandardCoord :=
  if step = 3 then
    (stepThreeTargets source_coords).filter (fun c => !occupied_coords.contains c)
  else if step = 6 then
    (stepSixTargets source_coords).filter (fun c => !occupied_coords.contains c)
  else if step = 9 then
    (stepNineTargets source_coords).filter (fun c => !occupied_coords.contains c)
  else if 9 < step ∧ step % 3 = 0 then
    (randomLoop source_coords step occupied_coords rand 500 0 [] 0).1
  else []

/-- Number of attempts performed by the randomized search of the `step > 9`
branch. -/
def randomAttemptsUsed (source_coords : StandardCoord) (step : Int)
    (occupied_coords : List StandardCoord) (rand : Nat → Nat) : Nat :=
  (randomLoop source_coords step occupied_coords rand 500 0 [] 0).2

theorem mem_setAdd {a c : StandardCoord} {l : List StandardCoord} :
    a ∈ setAdd c l ↔ a = c ∨ a ∈ l := by
  unfold setAdd
  split
  · rename_i h
    constructor
    · exact fun h' => Or.inr h'
    · rintro (rfl | h') <;> assumption
  · simp [List.mem_append, or_comm]

theorem setAdd_nodup (c : StandardCoord) (l : List StandardCoord) (h : l.Nodup) :
    (setAdd c l).Nodup := by
  unfold setAdd
  split
  · exact h
  · rename_i hc
    rw [List.nodup_append]
    refine ⟨h, List.nodup_singleton c, ?_⟩
    intro a ha hac
    exact hc ((List.mem_singleton.mp hac) ▸ ha)

theorem setAdd_of_mem {c : StandardCoord} {l : List StandardCoord} (h : c ∈ l) :
    setAdd c l = l := if_pos h

theorem mem_setAdd_self (c : StandardCoord) (l : List StandardCoord) :
    c ∈ setAdd c l := mem_setAdd.mpr (Or.inl rfl)

theorem setAdd_length_le (c : StandardCoord) (l : List StandardCoord) :
    (setAdd c l).length ≤ l.length + 1 := by
  unfold setAdd
  split
  · omega
  · simp

/-! ## Claim C6 -/

/-- The twelve "double move" targets the spec describes for `step = 6`: all
combinations of ±3 offsets on exactly two of the three axes.  This definition
follows the spec's words and is the reference the code's output is compared
with. -/
def twelveCombos (s : StandardCoord) : List StandardCoord :=
  [(s.1 + 3, s.2.1 + 3, s.2.2), (s.1 + 3, s.2.1 - 3, s.2.2),
   (s.1 - 3, s.2.1 + 3, s.2.2), (s.1 - 3, s.2.1 - 3, s.2.2),
   (s.1 + 3, s.2.1, s.2.2 + 3), (s.1 + 3, s.2.1, s.2.2 - 3),
   (s.1 - 3, s.2.1, s.2.2 + 3), (s.1 - 3, s.2.1, s.2.2 - 3),
   (s.1, s.2.1 + 3, s.2.2 + 3), (s.1, s.2.1 + 3, s.2.2 - 3),
   (s.1, s.2.1 - 3, s.2.2 + 3), (s.1, s.2.1 - 3, s.2.2 - 3)]

theorem stepSixTargets_mem (s : StandardCoord) (c : StandardCoord) :
    c ∈ stepSixTargets s ↔ c ∈ twelveCombos s := by
  obtain ⟨sx, sy, sz⟩ := s
  simp only [stepSixTargets, twelveCombos, List.foldl_cons, List.foldl_nil,
    mem_setAdd, List.mem_cons, List.not_mem_nil, or_false, sub_eq_add_neg]
  constructor
  · rintro (h | h | h | h | h | h | h | h | h | h | h | h | h | h | h | h | h | h | h | h) <;>
      simp [h]
  · rintro (h | h | h | h | h | h | h | h | h | h | h | h) <;> simp [h]

theorem stepSixTargets_nodup (s : StandardCoord) : (stepSixTargets s).Nodup := by
  obtain ⟨sx, sy, sz⟩ := s
  simp only [stepSixTargets, List.foldl_cons, List.foldl_nil]
  repeat' apply setAdd_nodup
  exact List.nodup_nil

theorem twelveCombos_nodup (s : StandardCoord) : (twelveCombos s).Nodup := by
  obtain ⟨sx, sy, sz⟩ := s
  simp only [twelveCombos, List.nodup_cons, List.mem_cons, List.not_mem_nil,
    List.nodup_nil, Prod.mk.injEq, not_or, and_true, true_and]
  norm_num
  omega

/-- C6: for every source `s` (and any random stream — unused on this branch),
`generate_tentative_target_positions s 6 []` returns a duplicate-free list of
exactly 12 coordinates, whose members are precisely the two-axis ±3
combinations around `s`, each at Manhattan distance exactly 6 from `s`. -/
theorem c6_step_six_twelve_candidates (s : StandardCoord) (rand : Nat → Nat) :
    (generate_tentative_target_positions s 6 [] rand).Nodup
    ∧ (generate_tentative_target_positions s 6 [] rand).length = 12
    ∧ (∀ c, c ∈ generate_tentative_target_positions s 6 [] rand ↔ c ∈ twelveCombos s)
    ∧ ∀ c ∈ generate_tentative_target_positions s 6 [] rand,
        manhattanDistance s c = 6 := by
  have hgen : generate_tentative_target_positions s 6 [] rand = stepSixTargets s := by
    simp [generate_tentative_target_positions]
  rw [hgen]
  refine ⟨stepSixTargets_nodup s, ?_, stepSixTargets_mem s, ?_⟩
  · have hperm : (stepSixTargets s).Perm (twelveCombos s) :=
      (List.perm_ext_iff_of_nodup (stepSixTargets_nodup s) (twelveCombos_nodup s)).mpr
        (stepSixTargets_mem s)
    simpa using hperm.length_eq
  · intro c hc
    have : c ∈ twelveCombos s := (stepSixTargets_mem s c).mp hc
    obtain ⟨sx, sy, sz⟩ := s
    simp only [twelveCombos, List.mem_cons, List.not_mem_nil, or_false] at this
    rcases this with rfl | rfl | rfl | rfl | rfl | rfl | rfl | rfl | rfl | rfl | rfl | rfl <;>
      · simp only [manhattanDistance]
        omega

/-! ## Claim C2 -/

theorem permAdd_length_le (s : StandardCoord) (step : Int) (occupied : List StandardCoord)
    (m : Int × Int × Int) (acc : List StandardCoord) :
    (permAdd s step occupied m acc).length ≤ acc.length + 1 := by
  unfold permAdd
  split
  · exact setAdd_length_le _ _
  · omega

theorem permAdd_permAdd (s : StandardCoord) (step : Int) (occupied : List StandardCoord)
    (m : Int × Int × Int) (acc : List StandardCoord) :
    permAdd s step occupied m (permAdd s step occupied m acc)
      = permAdd s step occupied m acc := by
  unfold permAdd
  split
  · rw [setAdd_of_mem (mem_setAdd_self _ _)]
  · rfl

theorem foldl_permAdd_length_le (s : StandardCoord) (step : Int)
    (occupied : List StandardCoord) (L : List (Int × Int × Int)) :
    ∀ acc : List StandardCoord,
      (List.foldl (fun a m => permAdd s step occupied m a) acc L).length
        ≤ acc.length + L.length := by
  induction L with
  | nil => intro acc; simp
  | cons m L ih =>
    intro acc
    calc (List.foldl (fun a m => permAdd s step occupied m a)
            (permAdd s step occupied m acc) L).length
        ≤ (permAdd s step occupied m acc).length + L.length := ih _
      _ ≤ acc.length + 1 + L.length := by
          have := permAdd_length_le s step occupied m acc
          omega
      _ = acc.length + (m :: L).length := by simp; omega

theorem attemptCore_length_le (s : StandardCoord) (step : Int)
    (occupied : List StandardCoord) (m : Int × Int × Int) (acc : List StandardCoord) :
    (attemptCore s step occupied m acc).length ≤ acc.length + 6 := by
  obtain ⟨mx, my, mz⟩ := m
  unfold attemptCore movePerms
  simp only [List.foldl_cons]
  rw [permAdd_permAdd]
  calc (List.foldl (fun a m' => permAdd s step occupied m' a)
          (permAdd s step occupied (mx, my, mz) acc)
          [(mx, mz, my), (my, mx, mz), (my, mz, mx), (mz, mx, my), (mz, my, mx)]).length
      ≤ (permAdd s step occupied (mx, my, mz) acc).length + 5 :=
        foldl_permAdd_length_le _ _ _ _ _
    _ ≤ acc.length + 6 := by
        have := permAdd_length_le s step occupied (mx, my, mz) acc
        omega

theorem attemptBody_length_le (s : StandardCoord) (step : Int)
    (occupied : List StandardCoord) (r1 r2 : Nat) (acc : List StandardCoord) :
    (attemptBody s step occupied r1 r2 acc).length ≤ acc.length + 6 := by
  unfold attemptBody
  exact attemptCore_length_le _ _ _ _ _

theorem mem_permAdd {a : StandardCoord} {s : StandardCoord} {step : Int}
    {occupied : List StandardCoord} {m : Int × Int × Int} {acc : List StandardCoord}
    (h : a ∈ permAdd s step occupied m acc) :
    a ∈ acc ∨ (absSum m = step
      ∧ a = (s.1 + m.1, s.2.1 + m.2.1, s.2.2 + m.2.2) ∧ a ∉ occupied) := by
  unfold permAdd at h
  split at h
  · rename_i hc
    rcases mem_setAdd.mp h with rfl | ha
    · exact Or.inr ⟨hc.1, rfl, hc.2⟩
    · exact Or.inl ha
  · exact Or.inl h

/-- Any coordinate accepted by a guarded addition is at Manhattan distance
exactly `step` from the source and is not occupied. -/
theorem mem_permAdd_good {a : StandardCoord} {s : StandardCoord} {step : Int}
    {occupied : List StandardCoord} {m : Int × Int × Int} {acc : List StandardCoord}
    (h : a ∈ permAdd s step occupied m acc) :
    a ∈ acc ∨ ((manhattanDistance s a : Int) = step ∧ a ∉ occupied) := by
  rcases mem_permAdd h with ha | ⟨habs, rfl, hocc⟩
  · exact Or.inl ha
  · refine Or.inr ⟨?_, hocc⟩
    obtain ⟨sx, sy, sz⟩ := s
    obtain ⟨mx, my, mz⟩ := m
    simp only [manhattanDistance, absSum] at habs ⊢
    omega

theorem mem_foldl_permAdd_good {a : StandardCoord} {s : StandardCoord} {step : Int}
    {occupied : List StandardCoord} (L : List (Int × Int × Int)) :
    ∀ {acc : List StandardCoord},
      a ∈ List.foldl (fun x m' => permAdd s step occupied m' x) acc L →
      a ∈ acc ∨ ((manhattanDistance s a : Int) = step ∧ a ∉ occupied) := by
  induction L with
  | nil => intro acc h; exact Or.inl h
  | cons m L ih =>
    intro acc h
    rcases ih h with h' | h'
    · exact mem_permAdd_good h'
    · exact Or.inr h'

theorem mem_attemptBody_good {a : StandardCoord} {s : StandardCoord} {step : Int}
    {occupied : List StandardCoord} {r1 r2 : Nat} {acc : List StandardCoord}
    (h : a ∈ attemptBody s step occupied r1 r2 acc) :
    a ∈ acc ∨ ((manhattanDistance s a : Int) = step ∧ a ∉ occupied) := by
  unfold attemptBody attemptCore at h
  rcases mem_foldl_permAdd_good _ h with h' | h'
  · exact mem_permAdd_good h'
  · exact Or.inr h'

theorem randomLoop_mem_good {a : StandardCoord} {s : StandardCoord} {step : Int}
    {occupied : List StandardCoord} {rand : Nat → Nat} (fuel : Nat) :
    ∀ {ridx : Nat} {acc : List StandardCoord} {att : Nat},
      a ∈ (randomLoop s step occupied rand fuel ridx acc att).1 →
      a ∈ acc ∨ ((manhattanDistance s a : Int) = step ∧ a ∉ occupied) := by
  induction fuel with
  | zero => intro ridx acc att h; exact Or.inl h
  | succ fuel ih =>
    intro ridx acc att h
    rw [randomLoop] at h
    split at h
    · rcases ih h with h' | h'
      · exact mem_attemptBody_good h'
      · exact Or.inr h'
    · exact Or.inl h

theorem randomLoop_length_le {s : StandardCoord} {step : Int}
    {occupied : List StandardCoord} {rand : Nat → Nat} (fuel : Nat) :
    ∀ {ridx : Nat} {acc : List StandardCoord} {att : Nat},
      (randomLoop s step occupied rand fuel ridx acc att).1.length
        ≤ max acc.length 17 := by
  induction fuel with
  | zero => intro ridx acc att; exact le_max_left _ _
  | succ fuel ih =>
    intro ridx acc att
    rw [randomLoop]
    split
    · rename_i hlt
      refine le_trans ih ?_
      have := attemptBody_length_le s step occupied (rand ridx) (rand (ridx + 1)) acc
      omega
    · exact le_max_left _ _

theorem randomLoop_attempts_le {s : StandardCoord} {step : Int}
    {occupied : List StandardCoord} {rand : Nat → Nat} (fuel : Nat) :
    ∀ {ridx : Nat} {acc : List StandardCoord} {att : Nat},
      (randomLoop s step occupied rand fuel ridx acc att).2 ≤ att + fuel := by
  induction fuel with
  | zero => intro ridx acc att; exact Nat.le_refl _
  | succ fuel ih =>
    intro ridx acc att
    rw [randomLoop]
    split
    · refine le_trans ih ?_
      omega
    · omega

/-- C2 (amended): for every source, every `step > 9` that is a multiple of 3,
every occupied list and every random stream, the `step > 9` branch of
`generate_tentative_target_positions` returns at most 17 candidates (not 12
as originally claimed: up to 6 distinct permutations can be accepted in the
attempt that crosses the 12 threshold, so a run can finish with up to
`11 + 6 = 17`), performs at most 500 attempts, and every returned coordinate
has Manhattan distance exactly `step` from the source and is absent from the
occupied list. -/
theorem c2_random_branch_bounds (s : StandardCoord) (step : Int)
    (occupied : List StandardCoord) (rand : Nat → Nat)
    (h9 : 9 < step) (h3 : step % 3 = 0) :
    (generate_tentative_target_positions s step occupied rand).length ≤ 17
    ∧ (∀ c ∈ generate_tentative_target_positions s step occupied rand,
        (manhattanDistance s c : Int) = step ∧ c ∉ occupied)
    ∧ randomAttemptsUsed s step occupied rand ≤ 500 := by
  have hbr : generate_tentative_target_positions s step occupied rand
      = (randomLoop s step occupied rand 500 0 [] 0).1 := by
    unfold generate_tentative_target_positions
    rw [if_neg (by omega), if_neg (by omega), if_neg (by omega), if_pos ⟨h9, h3⟩]
  refine ⟨?_, ?_, ?_⟩
  · rw [hbr]
    exact le_trans (randomLoop_length_le 500) (by decide)
  · intro c hc
    rw [hbr] at hc
    rcases randomLoop_mem_good 500 hc with h | h
    · simp at h
    · exact h
  · unfold randomAttemptsUsed
    simpa using randomLoop_attempts_le 500

/-- The concrete random stream used for the C2 counterexample: it drives four
attempts through the splits (3,3,6), (-3,-3,6), (-6,3,3) and (0,3,9), whose
permutation sets contribute 3 + 3 + 3 + 6 = 15 distinct candidates, so the
run crosses the 12 threshold by 3. -/
def c2Rand : Nat → Nat := fun n => [5, 4, 3, 2, 2, 3, 4, 5].getD n 0

/-- C2 counterexample: with source (0,0,0), step 12, no occupied cells and
the stream `c2Rand`, the randomized branch returns 15 candidates — more than
the "at most 12" the original claim asserts. -/
theorem c2_more_than_twelve_candidates :
    (generate_tentative_target_positions (0, 0, 0) 12 [] c2Rand).length = 15
    ∧ ¬ (generate_tentative_target_positions (0, 0, 0) 12 [] c2Rand).length ≤ 12 := by
  decide

/-- C2 witness: the amended bounds instantiated at source (0,0,0), step 12,
empty occupied list and the counterexample stream. -/
theorem c2_random_branch_bounds_witness :
    (9 : Int) < 12 ∧ (12 : Int) % 3 = 0
    ∧ ((generate_tentative_target_positions (0, 0, 0) 12 [] c2Rand).length ≤ 17
      ∧ (∀ c ∈ generate_tentative_target_positions (0, 0, 0) 12 [] c2Rand,
          (manhattanDistance (0, 0, 0) c : Int) = 12 ∧ c ∉ ([] : List StandardCoord))
      ∧ randomAttemptsUsed (0, 0, 0) 12 [] c2Rand ≤ 500) :=
  ⟨by decide, by decide, c2_random_branch_bounds (0, 0, 0) 12 [] c2Rand (by decide) (by decide)⟩

/-! ## `prune_all_beams` (lines 289-315) -/

/-- Whether a single beam survives pruning: all of its coordinates are
outside `occupied_coords`
(line 308: `all([coord not in occupied_coords for coord in single_beam])`). -/
def beamSurvives (occupied_coords : List StandardCoord) (single_beam : StandardBeam) :
    Bool :=
  single_beam.all (fun coord => !occupied_coords.contains coord)

/-- `prune_all_beams` (lines 289-315): keep, inside each node's beam list,
only the beams none of whose cells are occupied, and drop node entries whose
beam list becomes empty.  The `try/except` of the source cannot fire on
well-typed inputs (the body only iterates and compares tuples), so the
fallback branch is not modelled. -/
def prune_all_beams (all_beams : List NodeBeams) (occupied_coords : List StandardCoord) :
    List NodeBeams :=
  match all_beams with
  | [] => []
  | node_beams :: rest =>
    let new_node_beams := node_beams.filter (beamSurvives occupied_coords)
    if new_node_beams.isEmpty then prune_all_beams rest occupied_coords
    else new_node_beams :: prune_all_beams rest occupied_coords

/-! ## Claim C7 -/

/-- C7: `prune_all_beams` is idempotent — pruning an already-pruned
collection against the same occupied list returns it unchanged. -/
theorem c7_prune_all_beams_idempotent (all_beams : List NodeBeams)
    (occupied_coords : List StandardCoord) :
    prune_all_beams (prune_all_beams all_beams occupied_coords) occupied_coords
      = prune_all_beams all_beams occupied_coords := by
  induction all_beams with
  | nil => rfl
  | cons node_beams rest ih =>
    rw [prune_all_beams]
    by_cases h : (node_beams.filter (beamSurvives occupied_coords)).isEmpty
    · rw [if_pos h]
      exact ih
    · rw [if_neg h]
      have hf : (node_beams.filter (beamSurvives occupied_coords)).filter
          (beamSurvives occupied_coords)
          = node_beams.filter (beamSurvives occupied_coords) :=
        List.filter_eq_self.mpr (fun a ha => List.of_mem_filter ha)
      rw [prune_all_beams, hf, if_neg h, ih]

/-! ## `adjust_hadamards_direction` (lines 439-461) -/

/-- Python dict lookup on a small association list (raising = `none`). -/
def pyLookup (k : String) : List (String × String) → Option String
  | [] => none
  | (a, b) :: rest => if a = k then some b else pyLookup k rest

/-- The `hdm_equivalences` table of line 451. -/
def hdmEquivalences : List (String × String) :=
  [("zxoh", "xzoh"), ("xozh", "zoxh"), ("oxzh", "ozxh")]

/-- `adjust_hadamards_direction` (lines 439-461): look the kind up in the
equivalence table (line 454-455); on a miss, look it up in the inverted
table (lines 457-458), where a second miss raises `KeyError` in Python,
modelled as `none`. -/
def adjust_hadamards_direction (pipe_type : String) : Option String :=
  match pyLookup pipe_type hdmEquivalences with
  | some v => some v
  | none => pyLookup pipe_type (hdmEquivalences.map Prod.swap)

/-- The 6 valid Hadamard kind strings (3 forward keys + 3 inverses). -/
def hdmSixKinds : List String :=
  ["zxoh", "xzoh", "xozh", "zoxh", "oxzh", "ozxh"]

/-! ## Claim C8 -/

/-- C8: `adjust_hadamards_direction` is its own inverse on the 6 valid
Hadamard kind strings — applying it twice returns the original — and it
fails (raises, modelled as `none`) on every string outside this set. -/
theorem c8_adjust_hadamards_involution :
    (∀ k ∈ hdmSixKinds,
      (adjust_hadamards_direction k).bind adjust_hadamards_direction = some k)
    ∧ ∀ k ∉ hdmSixKinds, adjust_hadamards_direction k = none := by
  constructor
  · decide
  · intro k hk
    simp only [hdmSixKinds, List.mem_cons, List.not_mem_nil, not_or] at hk
    obtain ⟨h1, h2, h3, h4, h5, h6, -⟩ := hk
    simp [adjust_hadamards_direction, hdmEquivalences, pyLookup,
      Ne.symm h1, Ne.symm h2, Ne.symm h3, Ne.symm h4, Ne.symm h5, Ne.symm h6]

/-- C8 witness: the involution at the concrete kind "zxoh" and failure at the
concrete outside string "abcd". -/
theorem c8_adjust_hadamards_involution_witness :
    ("zxoh" ∈ hdmSixKinds
      ∧ (adjust_hadamards_direction "zxoh").bind adjust_hadamards_direction
          = some "zxoh")
    ∧ ("abcd" ∉ hdmSixKinds ∧ adjust_hadamards_direction "abcd" = none) :=
  ⟨⟨by decide, c8_adjust_hadamards_involution.1 "zxoh" (by decide)⟩,
   ⟨by decide, c8_adjust_hadamards_involution.2 "abcd" (by decide)⟩⟩

/-! ## `rotate_o_types` (lines 396-436) -/

/-- Python `str.index(c)`: position of the first occurrence, or a raised
`ValueError` modelled as `none`. -/
def pyIndexOf (c : Char) : List Char → Option Nat
  | [] => none
  | x :: xs => if x = c then some 0 else (pyIndexOf c xs).map (· + 1)

/-- `rotate_o_types` (lines 396-436).  Notes kept faithful to the source:
the result of `pipe_type.replace("h", "")` on line 411 is discarded, so the
string is *not* stripped of `h` before the rotation — only `h_flag`
records whether `h` occurred anywhere (line 409).  The permutation encoded
by the `numpy` identity rows (lines 417-431) fixes the index of the first
`o` and swaps the other two of the indices {0, 1, 2}; `list.remove` raises
(here `none`) when that index is not in `[0, 1, 2]`, and reading a character
beyond the end of the string raises (`none`) as well. -/
def rotate_o_types (pipe_type : String) : Option String :=
  let cs := pipe_type.data
  match pyIndexOf 'o' cs with
  | none => none
  | some oIdx =>
    if oIdx ≥ 3 then none
    else
      match ([0, 1, 2] : List Nat).erase oIdx with
      | [a0, a1] =>
        let p : Nat → Nat := fun i => if i = oIdx then oIdx else if i = a0 then a1 else a0
        match cs[p 0]?, cs[p 1]?, cs[p 2]? with
        | some r0, some r1, some r2 =>
          some (String.mk ([r0, r1, r2] ++ if 'h' ∈ cs then ['h'] else []))
        | _, _, _ => none
      | _ => none

/-- A kind string as the C9 claim describes it: 3 base characters, with or
without a trailing Hadamard marker. -/
def kindString (c0 c1 c2 : Char) (marker : Bool) : String :=
  String.mk ([c0, c1, c2] ++ if marker then ['h'] else [])

/-! ## Claim C9 -/

/-- C9 counterexample: "oxh" has exactly one 'o' among its first 3
characters (and no trailing marker beyond them), so it is in the domain the
claim quantifies over, yet rotating it twice yields "oxhh", not "oxh": the
'h' in third position makes `h_flag` fire and append a spurious marker. -/
theorem c9_rotate_twice_not_identity :
    ("oxh" : String).data.length = 3
    ∧ ("oxh" : String).data.count 'o' = 1
    ∧ (rotate_o_types "oxh").bind rotate_o_types = some "oxhh"
    ∧ (rotate_o_types "oxh").bind rotate_o_types ≠ some "oxh" := by
  decide

/-- C9 (amended): rotating twice is the identity on kind strings of 3 base
characters (optionally followed by the 'h' marker) that contain exactly one
'o' among the base characters *and no 'h' among them* — the extra condition
the counterexample "oxh" forces, since a premature 'h' both triggers the
Hadamard flag and survives in the rotated base characters. -/
theorem c9_rotate_o_types_involution (c0 c1 c2 : Char) (marker : Bool)
    (hone : (c0 = 'o' ∧ ¬c1 = 'o' ∧ ¬c2 = 'o') ∨ (¬c0 = 'o' ∧ c1 = 'o' ∧ ¬c2 = 'o')
      ∨ (¬c0 = 'o' ∧ ¬c1 = 'o' ∧ c2 = 'o'))
    (hh : ¬c0 = 'h' ∧ ¬c1 = 'h' ∧ ¬c2 = 'h') :
    (rotate_o_types (kindString c0 c1 c2 marker)).bind rotate_o_types
      = some (kindString c0 c1 c2 marker) := by
  obtain ⟨h0, h1, h2⟩ := hh
  rcases hone with ⟨e0, n1, n2⟩ | ⟨n0, e1, n2⟩ | ⟨n0, n1, e2⟩
  · subst e0
    cases marker <;>
      simp [rotate_o_types, kindString, pyIndexOf, n1, n2, Ne.symm h1, Ne.symm h2]
  · subst e1
    cases marker <;>
      simp [rotate_o_types, kindString, pyIndexOf, n0, n2, Ne.symm h0, Ne.symm h2]
  · subst e2
    cases marker <;>
      simp [rotate_o_types, kindString, pyIndexOf, n0, n1, Ne.symm h0, Ne.symm h1]

/-- C9 witness: the amended involution at the concrete Hadamard pipe kind
"oxzh" (base characters 'o','x','z', marker present). -/
theorem c9_rotate_o_types_involution_witness :
    ((('o' : Char) = 'o' ∧ ¬('x' : Char) = 'o' ∧ ¬('z' : Char) = 'o')
      ∧ (¬('o' : Char) = 'h' ∧ ¬('x' : Char) = 'h' ∧ ¬('z' : Char) = 'h'))
    ∧ (rotate_o_types (kindString 'o' 'x' 'z' true)).bind rotate_o_types
        = some (kindString 'o' 'x' 'z' true) :=
  ⟨⟨⟨rfl, by decide, by decide⟩, by decide, by decide, by decide⟩,
   c9_rotate_o_types_involution 'o' 'x' 'z' true
     (Or.inl ⟨rfl, by decide, by decide⟩) ⟨by decide, by decide, by decide⟩⟩

/-! ## `build_newly_indexed_path_dict` (lines 318-393) -/

/-- One edge path record as supplied to `build_newly_indexed_path_dict`:
the endpoint id pair `src_tgt_ids` and the alternating block/pipe sequence
`path_nodes`.  The input dict of the source is only ever iterated through
`.values()` (lines 334, 338), so the input is modelled as the list of its
values in insertion order. -/
structure EdgePath where
  src_tgt_ids : Int × Int
  path_nodes : List StandardBlock

/-- Python dict insertion on an insertion-ordered association list: an
existing key keeps its position and receives the new value, a new key is
appended at the end. -/
def dictInsert {K V : Type} [DecidableEq K] (k : K) (v : V) :
    List (K × V) → List (K × V)
  | [] => [(k, v)]
  | (k', v') :: rest =>
    if k' = k then (k, v) :: rest else (k', v') :: dictInsert k v rest

/-- Python dict lookup (first — and, for lists built with `dictInsert`,
only — binding of the key). -/
def dictLookup {K V : Type} [DecidableEq K] (k : K) :
    List (K × V) → Option V
  | [] => none
  | (k', v) :: rest => if k' = k then some v else dictLookup k rest

/-- Lines 332-336: `max_id` starts at 0 and is folded with both endpoint ids
of every edge path. -/
def maxEndpointId (edge_paths : List EdgePath) : Int :=
  edge_paths.foldl
    (fun m ep => max (max m ep.src_tgt_ids.1) ep.src_tgt_ids.2) 0

/-- The indexed path built for one edge (lines 340-352): the start id maps
to the first node, each strictly intermediate node receives the next fresh
id, and — only when the path has more than one node — the end id maps to
the last node.  Returns the association list together with the advanced
fresh-id counter; `none` models the `IndexError` Python raises on
`nodes_in_path[0]` for an empty path (line 344). -/
def indexOnePath (next_id : Int) (ep : EdgePath) :
    Option (List (Int × StandardBlock) × Int) :=
  match ep.path_nodes with
  | [] => none
  | n0 :: _ =>
    let d0 := dictInsert ep.src_tgt_ids.1 n0 []
    let inter := (ep.path_nodes.drop 1).dropLast
    let step := inter.foldl
      (fun (acc : List (Int × StandardBlock) × Int) node =>
        (dictInsert acc.2 node acc.1, acc.2 + 1)) (d0, next_id)
    if ep.path_nodes.length > 1 then
      some (dictInsert ep.src_tgt_ids.2 ((ep.path_nodes.getLast?).getD n0) step.1, step.2)
    else
      some (step.1, step.2)

/-- Lines 338-354: process the edges in order, threading the shared fresh-id
counter, and insert each finished indexed path into `indexed_paths` under
the edge's `(start, end)` key — overwriting any earlier edge that used the
same key. -/
def buildIndexedPathsAux :
    List EdgePath → Int → List ((Int × Int) × List (Int × StandardBlock)) →
    Option (List ((Int × Int) × List (Int × StandardBlock)))
  | [], _, acc => some acc
  | ep :: rest, next_id, acc =>
    match indexOnePath next_id ep with
    | none => none
    | some (d, nid) => buildIndexedPathsAux rest nid (dictInsert ep.src_tgt_ids d acc)

/-- Phase 1 of `build_newly_indexed_path_dict` (lines 332-354). -/
def buildIndexedPaths (edge_paths : List EdgePath) :
    Option (List ((Int × Int) × List (Int × StandardBlock))) :=
  buildIndexedPathsAux edge_paths (maxEndpointId edge_paths + 1) []

/-- The inner loop of lines 383-391 over one indexed path's entries, with
`keys = list(item.keys())` fixed up front and `i` the running position:
even positions insert a node into `latice_nodes`, odd positions insert an
edge keyed `(keys[i-1], keys[i+1])` into `latice_edges`; `keys[i+1]` past
the end raises `IndexError` in Python, modelled as `none`. -/
def latticeItemAux (keys : List Int) :
    List (Int × StandardBlock) → Nat →
    List (Int × StandardBlock) → List ((Int × Int) × String) →
    Option (List (Int × StandardBlock) × List ((Int × Int) × String))
  | [], _, nodes, edges => some (nodes, edges)
  | (node_key, node_info) :: rest, i, nodes, edges =>
    if i % 2 = 0 then
      latticeItemAux keys rest (i + 1) (dictInsert node_key node_info nodes) edges
    else
      match keys[i - 1]?, keys[i + 1]? with
      | some k1, some k2 =>
        latticeItemAux keys rest (i + 1) nodes (dictInsert (k1, k2) node_info.2 edges)
      | _, _ => none

/-- The outer loop of lines 379-391 over `indexed_paths.values()`. -/
def latticeAux :
    List (List (Int × StandardBlock)) →
    List (Int × StandardBlock) → List ((Int × Int) × String) →
    Option (List (Int × StandardBlock) × List ((Int × Int) × String))
  | [], nodes, edges => some (nodes, edges)
  | item :: rest, nodes, edges =>
    match latticeItemAux (item.map Prod.fst) item 0 nodes edges with
    | none => none
    | some (nodes', edges') => latticeAux rest nodes' edges'

/-- `build_newly_indexed_path_dict` (lines 318-393).  The `final_edges` list
of lines 356-375 is computed by the source and then discarded (it is not
returned and its computation cannot raise), so it is not modelled.  Returns
`(latice_nodes, latice_edges)`. -/
def build_newly_indexed_path_dict (edge_paths : List EdgePath) :
    Option (List (Int × StandardBlock) × List ((Int × Int) × String)) :=
  match buildIndexedPaths edge_paths with
  | none => none
  | some indexed_paths => latticeAux (indexed_paths.map Prod.snd) [] []

/-! ### Specification-side descriptions used by C4/C10 -/

/-- The consecutive fresh ids `base, base + 1, ..., base + m - 1`. -/
def intIdsFrom (base : Int) (m : Nat) : List Int :=
  (List.range m).map (fun (i : Nat) => base + (i : Int))

/-- Number of strictly intermediate nodes of an edge path. -/
def interCount (ep : EdgePath) : Nat := ep.path_nodes.length - 2

/-- The indexed path the claims describe for one edge processed with the
fresh-id counter at `next_id`: the declared start id on the first node,
consecutive fresh ids on the strictly intermediate nodes, the declared end
id on the last node.  (Intended for paths of length at least 2.) -/
def pathDictSpec (next_id : Int) (ep : EdgePath) : List (Int × StandardBlock) :=
  match ep.path_nodes with
  | [] => []
  | n0 :: _ =>
    (ep.src_tgt_ids.1, n0)
      :: (List.zip (intIdsFrom next_id (interCount ep)) ((ep.path_nodes.drop 1).dropLast)
          ++ [(ep.src_tgt_ids.2, (ep.path_nodes.getLast?).getD n0)])

/-- The whole of phase 1 as the claims describe it: one entry per edge in
order, with a single counter threaded through all edges, advancing by the
number of strictly intermediate nodes of each. -/
def chainSpec (next_id : Int) : List EdgePath → List ((Int × Int) × List (Int × StandardBlock))
  | [] => []
  | ep :: rest =>
    (ep.src_tgt_ids, pathDictSpec next_id ep) :: chainSpec (next_id + (interCount ep : Int)) rest

/-- Total number of intermediate nodes of the first `j` edges. -/
def interSum (edge_paths : List EdgePath) (j : Nat) : Int :=
  (edge_paths.take j).foldl (fun a ep => a + (interCount ep : Int)) 0

/-- The value of the shared fresh-id counter when edge `j` begins
processing. -/
def freshBase (edge_paths : List EdgePath) (j : Nat) : Int :=
  maxEndpointId edge_paths + 1 + interSum edge_paths j

/-- The entries of a list sitting at even positions (`b = true`) or odd
positions (`b = false`). -/
def parityEntries {α : Type} : Bool → List α → List α
  | _, [] => []
  | true, a :: rest => a :: parityEntries false rest
  | false, _ :: rest => parityEntries true rest

/-- Folding `dictInsert` over a list of bindings. -/
def foldInsert (entries : List (Int × StandardBlock))
    (nodes : List (Int × StandardBlock)) : List (Int × StandardBlock) :=
  entries.foldl (fun n kv => dictInsert kv.1 kv.2 n) nodes

/-! ### Association-list lemmas -/

theorem dictInsert_eq_append {K V : Type} [DecidableEq K] (k : K) (v : V) :
    ∀ d : List (K × V), k ∉ d.map Prod.fst → dictInsert k v d = d ++ [(k, v)]
  | [], _ => rfl
  | (k', v') :: rest, h => by
    have hk : ¬k' = k := by
      intro he
      exact h (by simp [he])
    have hrest : k ∉ rest.map Prod.fst := by
      intro hm
      exact h (by simp [hm])
    simp only [dictInsert, if_neg hk, List.cons_append]
    rw [dictInsert_eq_append k v rest hrest]

theorem dictLookup_eq_none {K V : Type} [DecidableEq K] (k : K) :
    ∀ d : List (K × V), k ∉ d.map Prod.fst → dictLookup k d = none
  | [], _ => rfl
  | (k', v') :: rest, h => by
    have hk : ¬k' = k := by
      intro he
      exact h (by simp [he])
    have hrest : k ∉ rest.map Prod.fst := by
      intro hm
      exact h (by simp [hm])
    simp only [dictLookup, if_neg hk]
    exact dictLookup_eq_none k rest hrest

theorem dictLookup_dictInsert {K V : Type} [DecidableEq K] (k k' : K) (v : V) :
    ∀ d : List (K × V),
      dictLookup k (dictInsert k' v d) = if k' = k then some v else dictLookup k d
  | [] => by
    simp only [dictInsert, dictLookup]
  | (a, b) :: rest => by
    by_cases hak : a = k'
    · subst hak
      simp only [dictInsert, if_pos rfl, dictLookup]
      by_cases hk : a = k
      · simp [hk]
      · simp [hk]
    · simp only [dictInsert, if_neg hak, dictLookup]
      by_cases hk : a = k
      · subst hk
        have : ¬k' = a := fun he => hak he.symm
        simp [this]
      · simp only [if_neg hk]
        exact dictLookup_dictInsert k k' v rest

theorem dictLookup_mem_of_nodup {K V : Type} [DecidableEq K] (k : K) (v : V) :
    ∀ d : List (K × V), (d.map Prod.fst).Nodup → (k, v) ∈ d →
      dictLookup k d = some v
  | [], _, hm => absurd hm (List.not_mem_nil _)
  | (a, b) :: rest, hnd, hm => by
    rw [List.map_cons, List.nodup_cons] at hnd
    rcases List.mem_cons.mp hm with he | hm'
    · obtain ⟨rfl, rfl⟩ := Prod.mk.inj he
      simp [dictLookup]
    · have hak : ¬a = k := by
        intro he2
        subst he2
        exact hnd.1 (List.mem_map.mpr ⟨(a, v), hm', rfl⟩)
      simp only [dictLookup, if_neg hak]
      exact dictLookup_mem_of_nodup k v rest hnd.2 hm'

theorem mem_keys_exists_val {K V : Type} (k : K) (d : List (K × V))
    (h : k ∈ d.map Prod.fst) : ∃ v, (k, v) ∈ d := by
  rcases List.mem_map.mp h with ⟨⟨k', v⟩, hm, he⟩
  exact ⟨v, he ▸ hm⟩

/-! ### Parity-selection lemmas -/

theorem parityEntries_sublist {α : Type} :
    ∀ (l : List α) (b : Bool), (parityEntries b l).Sublist l
  | [], b => by cases b <;> exact List.Sublist.refl _
  | a :: rest, true => by
    simpa [parityEntries] using List.Sublist.cons₂ a (parityEntries_sublist rest false)
  | a :: rest, false => by
    simpa [parityEntries] using List.Sublist.cons a (parityEntries_sublist rest true)

theorem mem_of_mem_parityEntries {α : Type} {x : α} {l : List α} {b : Bool}
    (h : x ∈ parityEntries b l) : x ∈ l :=
  (parityEntries_sublist l b).mem h

theorem parityEntries_keys_nodup {l : List (Int × StandardBlock)} {b : Bool}
    (h : (l.map Prod.fst).Nodup) :
    ((parityEntries b l).map Prod.fst).Nodup :=
  ((parityEntries_sublist l b).map Prod.fst).nodup h

theorem getElem_mem_parityEntries {α : Type} :
    ∀ (l : List α) (b : Bool) (i : Nat) (h : i < l.length),
      (b = true → i % 2 = 0) → (b = false → i % 2 = 1) →
      l.get ⟨i, h⟩ ∈ parityEntries b l
  | [], b, i, h, _, _ => absurd h (by simp)
  | a :: rest, true, 0, h, _, _ => by
    simp [parityEntries]
  | a :: rest, true, i + 1, h, hb, _ => by
    have hi : i % 2 = 1 := by
      have := hb rfl
      omega
    simp only [parityEntries, List.get_cons_succ]
    exact List.mem_cons_of_mem a
      (getElem_mem_parityEntries rest false i (by simpa using h)
        (by simp) (fun _ => hi))
  | a :: rest, false, 0, h, _, hb => by
    have := hb rfl
    omega
  | a :: rest, false, i + 1, h, _, hb => by
    have hi : i % 2 = 0 := by
      have := hb rfl
      omega
    simp only [parityEntries, List.get_cons_succ]
    exact getElem_mem_parityEntries rest true i (by simpa using h)
      (fun _ => hi) (by simp)

/-! ### `foldInsert` lookup lemmas -/

theorem dictLookup_foldInsert_not_mem (k : Int) :
    ∀ (entries : List (Int × StandardBlock)) (nodes : List (Int × StandardBlock)),
      k ∉ entries.map Prod.fst →
      dictLookup k (foldInsert entries nodes) = dictLookup k nodes
  | [], nodes, _ => rfl
  | (k', v') :: rest, nodes, h => by
    have hk : ¬k' = k := by
      intro he
      exact h (by simp [he])
    have hrest : k ∉ rest.map Prod.fst := by
      intro hm
      exact h (by simp [hm])
    unfold foldInsert
    simp only [List.foldl_cons]
    rw [show List.foldl (fun n kv => dictInsert kv.1 kv.2 n) (dictInsert k' v' nodes) rest
        = foldInsert rest (dictInsert k' v' nodes) from rfl]
    rw [dictLookup_foldInsert_not_mem k rest (dictInsert k' v' nodes) hrest]
    rw [dictLookup_dictInsert, if_neg hk]

theorem dictLookup_foldInsert_mem (k : Int) (v : StandardBlock) :
    ∀ (entries : List (Int × StandardBlock)) (nodes : List (Int × StandardBlock)),
      (entries.map Prod.fst).Nodup → (k, v) ∈ entries →
      dictLookup k (foldInsert entries nodes) = some v
  | [], _, _, hm => absurd hm (List.not_mem_nil _)
  | (k', v') :: rest, nodes, hnd, hm => by
    rw [List.map_cons, List.nodup_cons] at hnd
    unfold foldInsert
    simp only [List.foldl_cons]
    rw [show List.foldl (fun n kv => dictInsert kv.1 kv.2 n) (dictInsert k' v' nodes) rest
        = foldInsert rest (dictInsert k' v' nodes) from rfl]
    rcases List.mem_cons.mp hm with he | hm'
    · obtain ⟨rfl, rfl⟩ := Prod.mk.inj he
      rw [dictLookup_foldInsert_not_mem k rest _ hnd.1]
      rw [dictLookup_dictInsert, if_pos rfl]
    · exact dictLookup_foldInsert_mem k v rest (dictInsert k' v' nodes) hnd.2 hm'

/-- The nodes dictionary accumulated over a list of items: each item
contributes its even-position entries in order. -/
def foldChainNodes (items : List (List (Int × StandardBlock)))
    (nodes : List (Int × StandardBlock)) : List (Int × StandardBlock) :=
  items.foldl (fun n item => foldInsert (parityEntries true item) n) nodes

theorem latticeItemAux_characterization (keys : List Int) :
    ∀ (item : List (Int × StandardBlock)) (i : Nat)
      (nodes : List (Int × StandardBlock)) (edges : List ((Int × Int) × String)),
      i + item.length = keys.length → keys.length % 2 = 1 →
      ((i % 2 = 0 → ∃ edges', latticeItemAux keys item i nodes edges
          = some (foldInsert (parityEntries true item) nodes, edges'))
        ∧ (i % 2 = 1 → ∃ edges', latticeItemAux keys item i nodes edges
          = some (foldInsert (parityEntries false item) nodes, edges')))
  | [], i, nodes, edges, _, _ => by
    constructor
    · intro _
      exact ⟨edges, rfl⟩
    · intro _
      exact ⟨edges, rfl⟩
  | (node_key, node_info) :: rest, i, nodes, edges, hlen, hodd => by
    constructor
    · intro hi
      rw [latticeItemAux, if_pos hi]
      have hnext := (latticeItemAux_characterization keys rest (i + 1)
        (dictInsert node_key node_info nodes) edges (by simp at hlen; omega) hodd).2
        (by omega)
      rcases hnext with ⟨edges', he⟩
      exact ⟨edges', he⟩
    · intro hi
      rw [latticeItemAux, if_neg (by omega)]
      have hi1 : i - 1 < keys.length := by
        simp at hlen
        omega
      have hi2 : i + 1 < keys.length := by
        simp at hlen
        omega
      rw [List.getElem?_eq_getElem hi1, List.getElem?_eq_getElem hi2]
      have hnext := (latticeItemAux_characterization keys rest (i + 1) nodes
        (dictInsert (keys[i - 1], keys[i + 1]) node_info.2 edges)
        (by simp at hlen; omega) hodd).1 (by omega)
      rcases hnext with ⟨edges', he⟩
      exact ⟨edges', he⟩

theorem latticeAux_characterization :
    ∀ (items : List (List (Int × StandardBlock)))
      (nodes : List (Int × StandardBlock)) (edges : List ((Int × Int) × String)),
      (∀ item ∈ items, item.length % 2 = 1) →
      ∃ edges', latticeAux items nodes edges = some (foldChainNodes items nodes, edges')
  | [], nodes, edges, _ => ⟨edges, rfl⟩
  | item :: rest, nodes, edges, hodd => by
    have hitem := (latticeItemAux_characterization (item.map Prod.fst) item 0 nodes edges
      (by simp) (by simpa using hodd item (by simp))).1 rfl
    rcases hitem with ⟨edges1, he1⟩
    have hnext := latticeAux_characterization rest
      (foldInsert (parityEntries true item) nodes) edges1
      (fun it hit => hodd it (List.mem_cons_of_mem _ hit))
    rcases hnext with ⟨edges', he'⟩
    refine ⟨edges', ?_⟩
    rw [latticeAux, he1]
    exact he'

/-! ### Lookup through the accumulated nodes dictionary -/

theorem dictLookup_foldChainNodes_some (k : Int) (v : StandardBlock) :
    ∀ (items : List (List (Int × StandardBlock))) (nodes : List (Int × StandardBlock)),
      (∀ item ∈ items, (item.map Prod.fst).Nodup) →
      (∀ item ∈ items, ∀ v', (k, v') ∈ parityEntries true item → v' = v) →
      ((∃ item ∈ items, (k, v) ∈ parityEntries true item) ∨ dictLookup k nodes = some v) →
      dictLookup k (foldChainNodes items nodes) = some v
  | [], nodes, _, _, hsrc => by
    rcases hsrc with ⟨item, hm, _⟩ | h
    · exact absurd hm (List.not_mem_nil _)
    · exact h
  | item :: rest, nodes, hnd, huniq, hsrc => by
    have hndi : ((parityEntries true item).map Prod.fst).Nodup :=
      parityEntries_keys_nodup (hnd item (by simp))
    have hstep : dictLookup k (foldInsert (parityEntries true item) nodes) = some v
        ∨ (k ∉ (parityEntries true item).map Prod.fst
            ∧ dictLookup k (foldInsert (parityEntries true item) nodes)
              = dictLookup k nodes) := by
      by_cases hk : k ∈ (parityEntries true item).map Prod.fst
      · rcases mem_keys_exists_val k _ hk with ⟨v', hv'⟩
        have : v' = v := huniq item (by simp) v' hv'
        subst this
        exact Or.inl (dictLookup_foldInsert_mem k v' _ nodes hndi hv')
      · exact Or.inr ⟨hk, dictLookup_foldInsert_not_mem k _ nodes hk⟩
    refine dictLookup_foldChainNodes_some k v rest _
      (fun it hit => hnd it (List.mem_cons_of_mem _ hit))
      (fun it hit => huniq it (List.mem_cons_of_mem _ hit)) ?_
    rcases hsrc with ⟨it, hitmem, hkv⟩ | hn
    · rcases List.mem_cons.mp hitmem with rfl | hit'
      · rcases hstep with h | ⟨hk, _⟩
        · exact Or.inr h
        · exact absurd (List.mem_map.mpr ⟨(k, v), hkv, rfl⟩) hk
      · exact Or.inl ⟨it, hit', hkv⟩
    · rcases hstep with h | ⟨hk, heq⟩
      · exact Or.inr h
      · by_cases hk2 : k ∈ (parityEntries true item).map Prod.fst
        · exact absurd hk2 hk
        · exact Or.inr (heq ▸ hn)

/-! ### Structure of `pathDictSpec` and phase 1 -/


theorem intIdsFrom_length (base : Int) (m : Nat) : (intIdsFrom base m).length = m := by
  unfold intIdsFrom
  rw [List.length_map, List.length_range]

theorem mem_intIdsFrom {k : Int} {base : Int} {m : Nat} (h : k ∈ intIdsFrom base m) :
    base ≤ k ∧ k < base + m := by
  unfold intIdsFrom at h
  rcases List.mem_map.mp h with ⟨i, hi, rfl⟩
  have := List.mem_range.mp hi
  omega

theorem intIdsFrom_getElem (base : Int) (m : Nat) (i : Nat) (h : i < m) :
    (intIdsFrom base m).get ⟨i, by rw [intIdsFrom_length]; exact h⟩ = base + (i : Int) := by
  unfold intIdsFrom
  rw [List.get_eq_getElem, List.getElem_map, List.getElem_range]

theorem intIdsFrom_nodup (base : Int) (m : Nat) : (intIdsFrom base m).Nodup := by
  unfold intIdsFrom
  refine List.Nodup.map ?_ (List.nodup_range m)
  intro a b hab
  have hab2 : base + (a : Int) = base + (b : Int) := hab
  omega

theorem intIdsFrom_succ (base : Int) (m : Nat) :
    intIdsFrom base (m + 1) = base :: intIdsFrom (base + 1) m := by
  unfold intIdsFrom
  rw [List.range_succ_eq_map]
  rw [List.map_cons, List.map_map]
  congr 1
  · norm_num
  · refine List.map_congr_left ?_
    intro a _
    show base + ((a : Nat) + 1 : Nat) = base + 1 + (a : Int)
    push_cast
    ring

/-- The counter returned by the intermediate-node fold advances by exactly
one per intermediate node, independently of the dictionary contents. -/
theorem foldl_insertFresh_snd :
    ∀ (inter : List StandardBlock) (d : List (Int × StandardBlock)) (next_id : Int),
      (inter.foldl (fun (acc : List (Int × StandardBlock) × Int) node =>
        (dictInsert acc.2 node acc.1, acc.2 + 1)) (d, next_id)).2
        = next_id + (inter.length : Int)
  | [], d, next_id => by simp
  | node :: rest, d, next_id => by
    simp only [List.foldl_cons]
    rw [foldl_insertFresh_snd rest (dictInsert next_id node d) (next_id + 1)]
    rw [List.length_cons]
    push_cast
    ring

/-- When every key already present is below the counter, the
intermediate-node fold appends the fresh bindings in order. -/
theorem foldl_insertFresh_fst :
    ∀ (inter : List StandardBlock) (d : List (Int × StandardBlock)) (next_id : Int),
      (∀ k ∈ d.map Prod.fst, k < next_id) →
      (inter.foldl (fun (acc : List (Int × StandardBlock) × Int) node =>
        (dictInsert acc.2 node acc.1, acc.2 + 1)) (d, next_id)).1
        = d ++ List.zip (intIdsFrom next_id inter.length) inter
  | [], d, next_id, _ => by simp [intIdsFrom]
  | node :: rest, d, next_id, hbound => by
    simp only [List.foldl_cons]
    have hins : dictInsert next_id node d = d ++ [(next_id, node)] :=
      dictInsert_eq_append _ _ _ (fun hmem => absurd (hbound _ hmem) (by omega))
    have hbound' : ∀ k ∈ (dictInsert next_id node d).map Prod.fst, k < next_id + 1 := by
      intro k hk
      rw [hins] at hk
      simp only [List.map_append, List.mem_append] at hk
      rcases hk with hk | hk
      · have := hbound k hk
        omega
      · simp at hk
        omega
    rw [foldl_insertFresh_fst rest (dictInsert next_id node d) (next_id + 1) hbound',
      hins, List.length_cons, intIdsFrom_succ]
    simp [List.zip_cons_cons, List.append_assoc]

theorem interCount_eq {ep : EdgePath} :
    ((ep.path_nodes.drop 1).dropLast).length = interCount ep := by
  simp [interCount]
  omega

/-- Characterisation of `indexOnePath` for a path with at least 2 nodes
whose endpoint ids sit below the fresh counter and differ from each other:
it produces exactly the claim's indexed path and advances the counter by the
number of intermediate nodes. -/
theorem indexOnePath_eq (next_id : Int) (ep : EdgePath)
    (hlen : 2 ≤ ep.path_nodes.length)
    (hs : ep.src_tgt_ids.1 < next_id) (he : ep.src_tgt_ids.2 < next_id)
    (hse : ep.src_tgt_ids.1 ≠ ep.src_tgt_ids.2) :
    indexOnePath next_id ep
      = some (pathDictSpec next_id ep, next_id + (interCount ep : Int)) := by
  obtain ⟨⟨s, e⟩, nodes⟩ := ep
  rcases nodes with _ | ⟨n0, tl⟩
  · simp at hlen
  · simp only at hs he hse hlen
    have hic : interCount ⟨(s, e), n0 :: tl⟩ = tl.length - 1 := by
      simp [interCount]
    simp only [indexOnePath, pathDictSpec]
    have hbound : ∀ k ∈ ([(s, n0)] : List (Int × StandardBlock)).map Prod.fst,
        k < next_id := by
      intro k hk
      simp at hk
      omega
    have hd0 : dictInsert s n0 ([] : List (Int × StandardBlock)) = [(s, n0)] := rfl
    rw [hd0, foldl_insertFresh_fst _ _ _ hbound, foldl_insertFresh_snd]
    have hgt : ((n0 :: tl).length > 1) := by
      simp only [List.length_cons] at hlen ⊢
      omega
    rw [if_pos hgt]
    have hkeys : e ∉ (([(s, n0)]
        ++ List.zip (intIdsFrom next_id (((n0 :: tl).drop 1).dropLast).length)
          ((n0 :: tl).drop 1).dropLast).map Prod.fst) := by
      simp only [List.map_append, List.mem_append, List.map_cons, List.map_nil,
        List.mem_singleton, not_or]
      refine ⟨fun h => hse h.symm, ?_⟩
      intro hmem
      rcases List.mem_map.mp hmem with ⟨⟨k, b⟩, hzip, hfst⟩
      have hk := (List.of_mem_zip hzip).1
      have hke : k = e := hfst
      subst hke
      rcases mem_intIdsFrom hk with ⟨h1, _⟩
      omega
    rw [dictInsert_eq_append _ _ _ hkeys]
    have hilen : (((n0 :: tl).drop 1).dropLast).length
        = interCount ⟨(s, e), n0 :: tl⟩ :=
      @interCount_eq ⟨(s, e), n0 :: tl⟩
    rw [hilen]
    simp

/-! ### Bounds on `maxEndpointId` and the fresh counter -/

theorem foldlMax_le_init :
    ∀ (eps : List EdgePath) (init : Int),
      init ≤ eps.foldl (fun m ep => max (max m ep.src_tgt_ids.1) ep.src_tgt_ids.2) init
  | [], _ => le_refl _
  | ep :: rest, init => by
    refine le_trans ?_ (foldlMax_le_init rest (max (max init ep.src_tgt_ids.1) ep.src_tgt_ids.2))
    exact le_trans (le_max_left _ _) (le_max_left _ _)

theorem endpoint_le_foldlMax :
    ∀ (eps : List EdgePath) (init : Int) (ep : EdgePath), ep ∈ eps →
      ep.src_tgt_ids.1
          ≤ eps.foldl (fun m ep => max (max m ep.src_tgt_ids.1) ep.src_tgt_ids.2) init
        ∧ ep.src_tgt_ids.2
          ≤ eps.foldl (fun m ep => max (max m ep.src_tgt_ids.1) ep.src_tgt_ids.2) init
  | [], _, _, hm => absurd hm (List.not_mem_nil _)
  | ep' :: rest, init, ep, hm => by
    rcases List.mem_cons.mp hm with rfl | hm'
    · constructor
      · exact le_trans (le_trans (le_max_right _ _) (le_max_left _ _))
          (foldlMax_le_init rest _)
      · exact le_trans (le_max_right _ _) (foldlMax_le_init rest _)
    · exact endpoint_le_foldlMax rest _ ep hm'

theorem maxEndpointId_nonneg (eps : List EdgePath) : 0 ≤ maxEndpointId eps :=
  foldlMax_le_init eps 0

theorem endpoint_le_maxEndpointId {eps : List EdgePath} {ep : EdgePath} (hm : ep ∈ eps) :
    ep.src_tgt_ids.1 ≤ maxEndpointId eps ∧ ep.src_tgt_ids.2 ≤ maxEndpointId eps :=
  endpoint_le_foldlMax eps 0 ep hm

theorem foldl_add_shift :
    ∀ (l : List EdgePath) (a : Int),
      l.foldl (fun x ep => x + (interCount ep : Int)) a
        = a + l.foldl (fun x ep => x + (interCount ep : Int)) 0
  | [], a => by simp
  | ep :: rest, a => by
    simp only [List.foldl_cons]
    rw [foldl_add_shift rest (a + (interCount ep : Int)),
      foldl_add_shift rest ((0 : Int) + (interCount ep : Int))]
    ring

theorem interSum_zero (eps : List EdgePath) : interSum eps 0 = 0 := rfl

theorem interSum_cons (ep : EdgePath) (rest : List EdgePath) (j : Nat) :
    interSum (ep :: rest) (j + 1) = (interCount ep : Int) + interSum rest j := by
  unfold interSum
  rw [List.take_succ_cons, List.foldl_cons, foldl_add_shift]
  ring

theorem interSum_nonneg : ∀ (eps : List EdgePath) (j : Nat), 0 ≤ interSum eps j := by
  intro eps j
  induction eps generalizing j with
  | nil => simp [interSum]
  | cons ep rest ih =>
    cases j with
    | zero => simp [interSum_zero]
    | succ j =>
      rw [interSum_cons]
      have := ih j
      have h0 : (0 : Int) ≤ (interCount ep : Int) := by positivity
      omega

theorem interSum_le_of_le :
    ∀ (eps : List EdgePath) (j j' : Nat), j ≤ j' → interSum eps j ≤ interSum eps j' := by
  intro eps
  intro j j' hj
  induction eps generalizing j j' with
  | nil => simp [interSum]
  | cons ep rest ih =>
    cases j with
    | zero =>
      cases j' with
      | zero => exact le_refl _
      | succ j' =>
        rw [interSum_zero, interSum_cons]
        have := interSum_nonneg rest j'
        have h0 : (0 : Int) ≤ (interCount ep : Int) := by positivity
        omega
    | succ j =>
      cases j' with
      | zero => omega
      | succ j' =>
        rw [interSum_cons, interSum_cons]
        have := ih j j' (by omega)
        omega

/-! ### Phase 1 equals the claimed chain -/

theorem chainSpec_length : ∀ (next_id : Int) (eps : List EdgePath),
    (chainSpec next_id eps).length = eps.length
  | _, [] => rfl
  | next_id, ep :: rest => by
    simp only [chainSpec, List.length_cons]
    rw [chainSpec_length (next_id + (interCount ep : Int)) rest]

theorem chainSpec_getElem :
    ∀ (eps : List EdgePath) (next_id : Int) (j : Nat) (hj : j < eps.length),
      (chainSpec next_id eps).get ⟨j, by rw [chainSpec_length]; exact hj⟩
        = ((eps.get ⟨j, hj⟩).src_tgt_ids,
            pathDictSpec (next_id + interSum eps j) (eps.get ⟨j, hj⟩))
  | [], _, j, hj => by simp at hj
  | ep :: rest, next_id, 0, hj => by
    simp [chainSpec, interSum_zero]
  | ep :: rest, next_id, j + 1, hj => by
    have ih := chainSpec_getElem rest (next_id + (interCount ep : Int)) j (by simpa using hj)
    simp only [chainSpec, List.get_cons_succ]
    rw [ih, interSum_cons]
    have : next_id + (interCount ep : Int) + interSum rest j
        = next_id + ((interCount ep : Int) + interSum rest j) := by ring
    rw [this]

theorem buildIndexedPathsAux_eq :
    ∀ (eps : List EdgePath) (next_id : Int)
      (acc : List ((Int × Int) × List (Int × StandardBlock))),
      (∀ ep ∈ eps, 2 ≤ ep.path_nodes.length ∧ ep.src_tgt_ids.1 < next_id
        ∧ ep.src_tgt_ids.2 < next_id ∧ ep.src_tgt_ids.1 ≠ ep.src_tgt_ids.2) →
      (eps.map (fun ep => ep.src_tgt_ids)).Nodup →
      (∀ ep ∈ eps, ep.src_tgt_ids ∉ acc.map Prod.fst) →
      buildIndexedPathsAux eps next_id acc = some (acc ++ chainSpec next_id eps)
  | [], next_id, acc, _, _, _ => by simp [buildIndexedPathsAux, chainSpec]
  | ep :: rest, next_id, acc, hshape, hnd, hdisj => by
    obtain ⟨hlen, hs, he, hse⟩ := hshape ep (by simp)
    rw [List.map_cons, List.nodup_cons] at hnd
    rw [buildIndexedPathsAux, indexOnePath_eq next_id ep hlen hs he hse]
    show buildIndexedPathsAux rest (next_id + (interCount ep : Int))
        (dictInsert ep.src_tgt_ids (pathDictSpec next_id ep) acc)
      = some (acc ++ chainSpec next_id (ep :: rest))
    rw [dictInsert_eq_append _ _ _ (hdisj ep (by simp))]
    have hic : (0 : Int) ≤ (interCount ep : Int) := by positivity
    have ih := buildIndexedPathsAux_eq rest (next_id + (interCount ep : Int))
      (acc ++ [(ep.src_tgt_ids, pathDictSpec next_id ep)])
      (by
        intro ep' hm
        obtain ⟨h1, h2, h3, h4⟩ := hshape ep' (List.mem_cons_of_mem _ hm)
        exact ⟨h1, by omega, by omega, h4⟩)
      hnd.2
      (by
        intro ep' hm
        simp only [List.map_append, List.mem_append, List.map_cons, List.map_nil,
          List.mem_singleton, not_or]
        refine ⟨fun h => hdisj ep' (List.mem_cons_of_mem _ hm) h, ?_⟩
        intro hpe
        exact hnd.1 (hpe ▸ List.mem_map.mpr ⟨ep', hm, rfl⟩))
    rw [ih, List.append_assoc]
    rfl

/-! ### Structure of a single indexed path -/

theorem pathDictSpec_length (next_id : Int) (ep : EdgePath)
    (hlen : 2 ≤ ep.path_nodes.length) :
    (pathDictSpec next_id ep).length = ep.path_nodes.length := by
  obtain ⟨⟨s, e⟩, nodes⟩ := ep
  rcases nodes with _ | ⟨n0, tl⟩
  · simp at hlen
  · simp only [List.length_cons] at hlen
    simp only [pathDictSpec, List.length_cons, List.length_append, List.length_zip,
      intIdsFrom_length, List.length_singleton, interCount, List.length_drop,
      List.length_dropLast, List.length_nil]
    omega

theorem pathDictSpec_mem {k : Int} {v : StandardBlock} {next_id : Int} {ep : EdgePath}
    (hlen : 2 ≤ ep.path_nodes.length)
    (h : (k, v) ∈ pathDictSpec next_id ep) :
    (k = ep.src_tgt_ids.1 ∧ ep.path_nodes.head? = some v)
    ∨ (next_id ≤ k ∧ k < next_id + (interCount ep : Int))
    ∨ (k = ep.src_tgt_ids.2 ∧ ep.path_nodes.getLast? = some v) := by
  obtain ⟨⟨s, e⟩, nodes⟩ := ep
  rcases nodes with _ | ⟨n0, tl⟩
  · simp at hlen
  · simp only [pathDictSpec] at h
    rcases List.mem_cons.mp h with he1 | h2
    · obtain ⟨rfl, rfl⟩ := Prod.mk.inj he1
      exact Or.inl ⟨rfl, rfl⟩
    · rcases List.mem_append.mp h2 with hz | hlast
      · refine Or.inr (Or.inl ?_)
        have hk := (List.of_mem_zip hz).1
        exact mem_intIdsFrom hk
      · refine Or.inr (Or.inr ?_)
        have he2 := List.mem_singleton.mp hlast
        obtain ⟨rfl, rfl⟩ := Prod.mk.inj he2
        refine ⟨rfl, ?_⟩
        have hg : (n0 :: tl).getLast? = some ((n0 :: tl).getLast (by simp)) :=
          List.getLast?_eq_getLast _ (by simp)
        rw [hg]
        simp

theorem pathDictSpec_keys_nodup (next_id : Int) (ep : EdgePath)
    (hlen : 2 ≤ ep.path_nodes.length)
    (hs : ep.src_tgt_ids.1 < next_id) (he : ep.src_tgt_ids.2 < next_id)
    (hse : ep.src_tgt_ids.1 ≠ ep.src_tgt_ids.2) :
    ((pathDictSpec next_id ep).map Prod.fst).Nodup := by
  obtain ⟨⟨s, e⟩, nodes⟩ := ep
  rcases nodes with _ | ⟨n0, tl⟩
  · simp at hlen
  · simp only [List.length_cons] at hlen
    simp only at hs he hse
    simp only [pathDictSpec, List.map_cons, List.map_append]
    rw [List.map_fst_zip _ _ (by
      rw [intIdsFrom_length]
      simp only [interCount, List.length_cons, List.length_drop, List.length_dropLast]
      omega)]
    rw [List.nodup_cons]
    constructor
    · intro hmem
      rcases List.mem_append.mp hmem with hmem | hmem
      · rcases mem_intIdsFrom hmem with ⟨h1, _⟩
        omega
      · simp only [List.map_cons, List.map_nil, List.mem_singleton] at hmem
        exact hse hmem
    · rw [List.nodup_append]
      refine ⟨intIdsFrom_nodup _ _, by simp, ?_⟩
      intro a ha hae
      simp only [List.map_cons, List.map_nil, List.mem_singleton] at hae
      subst hae
      rcases mem_intIdsFrom ha with ⟨h1, _⟩
      omega

theorem parityEntries_append {α : Type} :
    ∀ (l1 l2 : List α) (b : Bool),
      parityEntries b (l1 ++ l2)
        = parityEntries b l1
          ++ parityEntries (if l1.length % 2 = 0 then b else !b) l2
  | [], l2, b => by simp [parityEntries]
  | a :: t1, l2, true => by
    simp only [List.cons_append, parityEntries, List.length_cons, List.append_eq]
    rw [parityEntries_append t1 l2 false]
    by_cases hpar : t1.length % 2 = 0
    · rw [if_pos hpar, if_neg (by omega)]
      rfl
    · rw [if_neg hpar, if_pos (by omega)]
      rfl
  | a :: t1, l2, false => by
    simp only [List.cons_append, parityEntries, List.length_cons, List.append_eq]
    rw [parityEntries_append t1 l2 true]
    by_cases hpar : t1.length % 2 = 0
    · rw [if_pos hpar, if_neg (by omega)]
      rfl
    · rw [if_neg hpar, if_pos (by omega)]
      rfl

theorem pathDictSpec_start_mem (next_id : Int) (ep : EdgePath) {v : StandardBlock}
    (hlen : 2 ≤ ep.path_nodes.length) (hv : ep.path_nodes.head? = some v) :
    (ep.src_tgt_ids.1, v) ∈ parityEntries true (pathDictSpec next_id ep) := by
  obtain ⟨⟨s, e⟩, nodes⟩ := ep
  rcases nodes with _ | ⟨n0, tl⟩
  · simp at hlen
  · simp only [List.head?_cons, Option.some.injEq] at hv
    subst hv
    simp [pathDictSpec, parityEntries]

theorem pathDictSpec_parity_decomp (next_id : Int) (ep : EdgePath)
    (hlen : 2 ≤ ep.path_nodes.length) (hodd : ep.path_nodes.length % 2 = 1) :
    ∃ n0 : StandardBlock, ep.path_nodes.head? = some n0
      ∧ parityEntries true (pathDictSpec next_id ep)
        = (ep.src_tgt_ids.1, n0)
          :: (parityEntries false
                (List.zip (intIdsFrom next_id (interCount ep))
                  ((ep.path_nodes.drop 1).dropLast))
              ++ [(ep.src_tgt_ids.2, (ep.path_nodes.getLast?).getD n0)]) := by
  obtain ⟨⟨s, e⟩, nodes⟩ := ep
  rcases nodes with _ | ⟨n0, tl⟩
  · simp at hlen
  · refine ⟨n0, rfl, ?_⟩
    simp only [pathDictSpec, parityEntries]
    rw [parityEntries_append]
    have hzlen : (List.zip (intIdsFrom next_id (interCount ⟨(s, e), n0 :: tl⟩))
        (((n0 :: tl).drop 1).dropLast)).length % 2 = 1 := by
      simp only [List.length_zip, intIdsFrom_length, interCount, List.length_cons,
        List.length_drop, List.length_dropLast]
      simp only [List.length_cons] at hlen hodd
      omega
    rw [if_neg (by omega)]
    rfl

theorem pathDictSpec_end_mem (next_id : Int) (ep : EdgePath) {v : StandardBlock}
    (hlen : 2 ≤ ep.path_nodes.length) (hodd : ep.path_nodes.length % 2 = 1)
    (hv : ep.path_nodes.getLast? = some v) :
    (ep.src_tgt_ids.2, v) ∈ parityEntries true (pathDictSpec next_id ep) := by
  rcases pathDictSpec_parity_decomp next_id ep hlen hodd with ⟨n0, hh, hdec⟩
  rw [hdec]
  refine List.mem_cons_of_mem _ (List.mem_append.mpr (Or.inr ?_))
  rw [hv]
  simp

theorem pathDictSpec_fresh_mem (next_id : Int) (ep : EdgePath) (t : Nat)
    (hlen : 2 ≤ ep.path_nodes.length) (hodd : ep.path_nodes.length % 2 = 1)
    (ht1 : 1 ≤ t) (ht2 : t ≤ ep.path_nodes.length - 2) (hte : t % 2 = 0)
    (ht : t < ep.path_nodes.length) :
    (next_id + (t : Int) - 1, ep.path_nodes.get ⟨t, ht⟩)
      ∈ parityEntries true (pathDictSpec next_id ep) := by
  rcases pathDictSpec_parity_decomp next_id ep hlen hodd with ⟨n0, hh, hdec⟩
  rw [hdec]
  refine List.mem_cons_of_mem _ (List.mem_append.mpr (Or.inl ?_))
  have hzlen : (List.zip (intIdsFrom next_id (interCount ep))
      ((ep.path_nodes.drop 1).dropLast)).length = ep.path_nodes.length - 2 := by
    simp only [List.length_zip, intIdsFrom_length, interCount, List.length_drop,
      List.length_dropLast]
    omega
  have hzb : t - 1 < (List.zip (intIdsFrom next_id (interCount ep))
      ((ep.path_nodes.drop 1).dropLast)).length := by
    omega
  have hmem := getElem_mem_parityEntries _ false (t - 1) hzb
    (by intro h; exact absurd h (by decide)) (fun _ => by omega)
  have hids : t - 1 < interCount ep := by
    simp only [interCount]
    omega
  have hget : (List.zip (intIdsFrom next_id (interCount ep))
      ((ep.path_nodes.drop 1).dropLast)).get ⟨t - 1, hzb⟩
      = (next_id + (t : Int) - 1, ep.path_nodes.get ⟨t, ht⟩) := by
    rw [List.get_eq_getElem, List.getElem_zip, Prod.mk.injEq]
    constructor
    · have h2 := intIdsFrom_getElem next_id (interCount ep) (t - 1) hids
      rw [List.get_eq_getElem] at h2
      rw [h2]
      omega
    · rw [List.getElem_dropLast, List.getElem_drop, List.get_eq_getElem]
      have hidx : 1 + (t - 1) = t := by omega
      simp only [hidx]
  rw [hget] at hmem
  exact hmem

theorem interSum_succ :
    ∀ (eps : List EdgePath) (j : Nat) (hj : j < eps.length),
      interSum eps (j + 1) = interSum eps j + (interCount (eps.get ⟨j, hj⟩) : Int)
  | [], j, hj => by simp at hj
  | ep :: rest, 0, hj => by
    rw [interSum_cons, interSum_zero, interSum_zero]
    show (interCount ep : Int) + 0 = 0 + (interCount ep : Int)
    ring
  | ep :: rest, j + 1, hj => by
    rw [interSum_cons, interSum_cons, interSum_succ rest j (by simpa using hj)]
    simp only [List.get_cons_succ]
    ring

theorem freshBase_ge (eps : List EdgePath) (j : Nat) :
    maxEndpointId eps + 1 ≤ freshBase eps j := by
  unfold freshBase
  have := interSum_nonneg eps j
  omega

theorem freshBase_range_le {eps : List EdgePath} {j j' : Nat} (hj : j < eps.length)
    (hlt : j < j') :
    freshBase eps j + (interCount (eps.get ⟨j, hj⟩) : Int) ≤ freshBase eps j' := by
  have h1 : freshBase eps (j + 1)
      = freshBase eps j + (interCount (eps.get ⟨j, hj⟩) : Int) := by
    unfold freshBase
    rw [interSum_succ eps j hj]
    ring
  rw [← h1]
  unfold freshBase
  have := interSum_le_of_le eps (j + 1) j' (by omega)
  omega

theorem chainSpec_items_getElem (eps : List EdgePath) (next_id : Int) (j : Nat)
    (hj : j < eps.length) :
    ((chainSpec next_id eps).map Prod.snd).get
        ⟨j, by rw [List.length_map, chainSpec_length]; exact hj⟩
      = pathDictSpec (next_id + interSum eps j) (eps.get ⟨j, hj⟩) := by
  rw [List.get_eq_getElem, List.getElem_map]
  have := chainSpec_getElem eps next_id j hj
  rw [List.get_eq_getElem] at this
  rw [this]

theorem chainSpec_items_mem {eps : List EdgePath} {next_id : Int} {item : List (Int × StandardBlock)}
    (h : item ∈ (chainSpec next_id eps).map Prod.snd) :
    ∃ j, ∃ hj : j < eps.length,
      item = pathDictSpec (next_id + interSum eps j) (eps.get ⟨j, hj⟩) := by
  rcases List.mem_iff_getElem.mp h with ⟨j, hjl, hg⟩
  have hj : j < eps.length := by
    rw [List.length_map, chainSpec_length] at hjl
    exact hjl
  refine ⟨j, hj, ?_⟩
  have := chainSpec_items_getElem eps next_id j hj
  rw [List.get_eq_getElem] at this
  rw [← hg, this]

theorem pathDictSpec_mem_of_events (eps : List EdgePath) (next_id : Int) (j : Nat)
    (hj : j < eps.length) :
    pathDictSpec (next_id + interSum eps j) (eps.get ⟨j, hj⟩)
      ∈ (chainSpec next_id eps).map Prod.snd := by
  have := chainSpec_items_getElem eps next_id j hj
  rw [List.get_eq_getElem] at this
  rw [← this]
  exact List.getElem_mem _

/-- C4 (amended): for edge-path inputs whose paths are alternating
block/pipe/.../block sequences of odd length at least 3 (the original claim's
"non-empty" admits one-node paths, for which the code deliberately does not
bind the end id — see the counterexample), whose (start, end) id pairs are
pairwise distinct with start ≠ end in each pair, and in which paths sharing
an endpoint id agree on that endpoint's block: phase 1 indexes the paths
exactly as the claim says (start id on the first element, a single shared
counter starting at max endpoint id + 1 handing one fresh id per strictly
intermediate element across all edges, end id on the last element), the
returned nodes mapping binds each start id to its path's first element, each
end id to its path's last element, and each even-position intermediate
element to its fresh id; every fresh id exceeds every endpoint id and the
fresh ids are pairwise distinct. -/
theorem c4_lattice_assembler_indexing (eps : List EdgePath)
    (hshape : ∀ ep ∈ eps, ep.path_nodes.length % 2 = 1 ∧ 3 ≤ ep.path_nodes.length
      ∧ ep.src_tgt_ids.1 ≠ ep.src_tgt_ids.2)
    (hpairs : (eps.map (fun ep => ep.src_tgt_ids)).Nodup)
    (hcons : ∀ ep ∈ eps, ∀ ep' ∈ eps,
      (ep.src_tgt_ids.1 = ep'.src_tgt_ids.1 → ep.path_nodes.head? = ep'.path_nodes.head?)
      ∧ (ep.src_tgt_ids.1 = ep'.src_tgt_ids.2 → ep.path_nodes.head? = ep'.path_nodes.getLast?)
      ∧ (ep.src_tgt_ids.2 = ep'.src_tgt_ids.2
          → ep.path_nodes.getLast? = ep'.path_nodes.getLast?)) :
    buildIndexedPaths eps = some (chainSpec (maxEndpointId eps + 1) eps)
    ∧ (∃ N E, build_newly_indexed_path_dict eps = some (N, E)
        ∧ ∀ j (hj : j < eps.length),
            dictLookup (eps.get ⟨j, hj⟩).src_tgt_ids.1 N
                = (eps.get ⟨j, hj⟩).path_nodes.head?
            ∧ dictLookup (eps.get ⟨j, hj⟩).src_tgt_ids.2 N
                = (eps.get ⟨j, hj⟩).path_nodes.getLast?
            ∧ ∀ t (ht : t < (eps.get ⟨j, hj⟩).path_nodes.length),
                1 ≤ t → t ≤ (eps.get ⟨j, hj⟩).path_nodes.length - 2 →
                maxEndpointId eps < freshBase eps j + (t : Int) - 1
                ∧ (t % 2 = 0 →
                    dictLookup (freshBase eps j + (t : Int) - 1) N
                      = some ((eps.get ⟨j, hj⟩).path_nodes.get ⟨t, ht⟩)))
    ∧ ∀ j j' (hj : j < eps.length) (hj' : j' < eps.length) (t t' : Nat),
        t < interCount (eps.get ⟨j, hj⟩) → t' < interCount (eps.get ⟨j', hj'⟩) →
        freshBase eps j + (t : Int) = freshBase eps j' + (t' : Int) →
        j = j' ∧ t = t' := by
  have hB0 := maxEndpointId_nonneg eps
  have hshape2 : ∀ ep ∈ eps, 2 ≤ ep.path_nodes.length
      ∧ ep.src_tgt_ids.1 < maxEndpointId eps + 1
      ∧ ep.src_tgt_ids.2 < maxEndpointId eps + 1
      ∧ ep.src_tgt_ids.1 ≠ ep.src_tgt_ids.2 := by
    intro ep hm
    obtain ⟨h1, h2, h3⟩ := hshape ep hm
    obtain ⟨h4, h5⟩ := endpoint_le_maxEndpointId hm
    exact ⟨by omega, by omega, by omega, h3⟩
  have hphase1 : buildIndexedPaths eps
      = some (chainSpec (maxEndpointId eps + 1) eps) := by
    unfold buildIndexedPaths
    exact buildIndexedPathsAux_eq eps _ [] hshape2 hpairs (by intro ep _; simp)
  have hitem_mem : ∀ item ∈ (chainSpec (maxEndpointId eps + 1) eps).map Prod.snd,
      ∃ j, ∃ hj : j < eps.length,
        item = pathDictSpec (freshBase eps j) (eps.get ⟨j, hj⟩) := by
    intro item h
    rcases chainSpec_items_mem h with ⟨j, hj, he⟩
    exact ⟨j, hj, he⟩
  have hitem_at : ∀ j (hj : j < eps.length),
      pathDictSpec (freshBase eps j) (eps.get ⟨j, hj⟩)
        ∈ (chainSpec (maxEndpointId eps + 1) eps).map Prod.snd := by
    intro j hj
    exact pathDictSpec_mem_of_events eps (maxEndpointId eps + 1) j hj
  have hnodup_items : ∀ item ∈ (chainSpec (maxEndpointId eps + 1) eps).map Prod.snd,
      (item.map Prod.fst).Nodup := by
    intro item h
    rcases hitem_mem item h with ⟨j, hj, rfl⟩
    have hmem := List.get_mem eps j hj
    obtain ⟨h1, h2, h3⟩ := hshape _ hmem
    obtain ⟨h4, h5⟩ := endpoint_le_maxEndpointId hmem
    have h6 := freshBase_ge eps j
    exact pathDictSpec_keys_nodup _ _ (by omega) (by omega) (by omega) h3
  have hlen_items : ∀ item ∈ (chainSpec (maxEndpointId eps + 1) eps).map Prod.snd,
      item.length % 2 = 1 := by
    intro item h
    rcases hitem_mem item h with ⟨j, hj, rfl⟩
    have hmem := List.get_mem eps j hj
    obtain ⟨h1, h2, h3⟩ := hshape _ hmem
    rw [pathDictSpec_length _ _ (by omega)]
    exact h1
  obtain ⟨E, hE⟩ := latticeAux_characterization
    ((chainSpec (maxEndpointId eps + 1) eps).map Prod.snd) [] [] hlen_items
  have hbuild : build_newly_indexed_path_dict eps
      = some (foldChainNodes ((chainSpec (maxEndpointId eps + 1) eps).map Prod.snd) [], E) := by
    unfold build_newly_indexed_path_dict
    rw [hphase1]
    exact hE
  have hhead : ∀ j (hj : j < eps.length),
      ∃ v, (eps.get ⟨j, hj⟩).path_nodes.head? = some v := by
    intro j hj
    obtain ⟨h1, h2, h3⟩ := hshape _ (List.get_mem eps j hj)
    rcases hx : (eps.get ⟨j, hj⟩).path_nodes with _ | ⟨a, t⟩
    · rw [hx] at h2
      simp at h2
    · exact ⟨a, rfl⟩
  have hlast : ∀ j (hj : j < eps.length),
      ∃ v, (eps.get ⟨j, hj⟩).path_nodes.getLast? = some v := by
    intro j hj
    obtain ⟨h1, h2, h3⟩ := hshape _ (List.get_mem eps j hj)
    have hne : (eps.get ⟨j, hj⟩).path_nodes ≠ [] := by
      intro hx
      rw [hx] at h2
      simp at h2
    exact ⟨(eps.get ⟨j, hj⟩).path_nodes.getLast hne,
      List.getLast?_eq_getLast _ hne⟩
  refine ⟨hphase1, ⟨_, E, hbuild, ?_⟩, ?_⟩
  · intro j hj
    have hmemj := List.get_mem eps j hj
    obtain ⟨hodd, hlen3, hne⟩ := hshape _ hmemj
    obtain ⟨hsB, heB⟩ := endpoint_le_maxEndpointId hmemj
    refine ⟨?_, ?_, ?_⟩
    · -- start id lookup
      obtain ⟨v, hv⟩ := hhead j hj
      rw [hv]
      refine dictLookup_foldChainNodes_some _ v _ [] hnodup_items ?_ ?_
      · intro item hitem v' hmem
        rcases hitem_mem item hitem with ⟨j', hj', rfl⟩
        have hmem2 := mem_of_mem_parityEntries hmem
        have hmemj' := List.get_mem eps j' hj'
        obtain ⟨ho', hl', hne'⟩ := hshape _ hmemj'
        rcases pathDictSpec_mem (by omega) hmem2 with ⟨hk, hval⟩ | ⟨hb1, hb2⟩ | ⟨hk, hval⟩
        · have hc := (hcons _ hmemj _ hmemj').1 hk
          rw [hv, hval] at hc
          exact (Option.some.inj hc).symm
        · have hge := freshBase_ge eps j'
          omega
        · have hc := (hcons _ hmemj _ hmemj').2.1 hk
          rw [hv, hval] at hc
          exact (Option.some.inj hc).symm
      · exact Or.inl ⟨_, hitem_at j hj,
          pathDictSpec_start_mem (freshBase eps j) _ (by omega) hv⟩
    · -- end id lookup
      obtain ⟨v, hv⟩ := hlast j hj
      rw [hv]
      refine dictLookup_foldChainNodes_some _ v _ [] hnodup_items ?_ ?_
      · intro item hitem v' hmem
        rcases hitem_mem item hitem with ⟨j', hj', rfl⟩
        have hmem2 := mem_of_mem_parityEntries hmem
        have hmemj' := List.get_mem eps j' hj'
        obtain ⟨ho', hl', hne'⟩ := hshape _ hmemj'
        rcases pathDictSpec_mem (by omega) hmem2 with ⟨hk, hval⟩ | ⟨hb1, hb2⟩ | ⟨hk, hval⟩
        · have hc := (hcons _ hmemj' _ hmemj).2.1 hk.symm
          rw [hv, hval] at hc
          exact Option.some.inj hc
        · have hge := freshBase_ge eps j'
          omega
        · have hc := (hcons _ hmemj _ hmemj').2.2 hk
          rw [hv, hval] at hc
          exact (Option.some.inj hc).symm
      · exact Or.inl ⟨_, hitem_at j hj,
          pathDictSpec_end_mem (freshBase eps j) _ (by omega) hodd hv⟩
    · -- fresh intermediate lookups
      intro t ht ht1 ht2
      have hgt : maxEndpointId eps < freshBase eps j + (t : Int) - 1 := by
        have := freshBase_ge eps j
        omega
      refine ⟨hgt, ?_⟩
      intro hte
      refine dictLookup_foldChainNodes_some _ _ _ [] hnodup_items ?_ ?_
      · intro item hitem v' hmem
        rcases hitem_mem item hitem with ⟨j', hj', rfl⟩
        have hmem2 := mem_of_mem_parityEntries hmem
        have hmemj' := List.get_mem eps j' hj'
        obtain ⟨ho', hl', hne'⟩ := hshape _ hmemj'
        obtain ⟨hs', he'⟩ := endpoint_le_maxEndpointId hmemj'
        rcases pathDictSpec_mem (by omega) hmem2 with ⟨hk, hval⟩ | ⟨hb1, hb2⟩ | ⟨hk, hval⟩
        · have hge := freshBase_ge eps j
          omega
        · rcases Nat.lt_trichotomy j j' with hlt | heq | hgt2
          · have hle := freshBase_range_le hj hlt
            have hicj : (interCount (eps.get ⟨j, hj⟩) : Int)
                = ((eps.get ⟨j, hj⟩).path_nodes.length : Int) - 2 := by
              simp only [interCount]
              omega
            omega
          · subst heq
            have hnd := hnodup_items _ (hitem_at j hj)
            have hv2 := dictLookup_mem_of_nodup _ _ _ hnd hmem2
            have hv1 := dictLookup_mem_of_nodup _ _ _ hnd
              (mem_of_mem_parityEntries
                (pathDictSpec_fresh_mem (freshBase eps j) _ t (by omega) hodd ht1 ht2 hte ht))
            rw [hv1] at hv2
            exact (Option.some.inj hv2).symm
          · have hle := freshBase_range_le hj' hgt2
            have hicj' : (interCount (eps.get ⟨j', hj'⟩) : Int)
                = ((eps.get ⟨j', hj'⟩).path_nodes.length : Int) - 2 := by
              simp only [interCount]
              omega
            omega
        · have hge := freshBase_ge eps j
          omega
      · exact Or.inl ⟨_, hitem_at j hj,
          pathDictSpec_fresh_mem (freshBase eps j) _ t (by omega) hodd ht1 ht2 hte ht⟩
  · -- fresh ids pairwise distinct across all edges
    intro j j' hj hj' t t' hti hti' heq
    rcases Nat.lt_trichotomy j j' with hlt | hjeq | hgt2
    · have hle := freshBase_range_le hj hlt
      have : (t : Int) < (interCount (eps.get ⟨j, hj⟩) : Int) := by
        exact_mod_cast hti
      have h0 : (0 : Int) ≤ (t' : Int) := by positivity
      omega
    · subst hjeq
      have : t = t' := by omega
      exact ⟨rfl, this⟩
    · have hle := freshBase_range_le hj' hgt2
      have : (t' : Int) < (interCount (eps.get ⟨j', hj'⟩) : Int) := by
        exact_mod_cast hti'
      have h0 : (0 : Int) ≤ (t : Int) := by positivity
      omega

/-- Piecewise decidable equality for the assembler's result type; the
automatic synthesis of the combined product instance exceeds the default
search limits. -/
instance latticeResultDecEq :
    DecidableEq (List (Int × StandardBlock) × List ((Int × Int) × String)) :=
  instDecidableEqProd

/-- Decidable equality for optional blocks, again provided piecewise. -/
instance optionBlockDecEq : DecidableEq (Option StandardBlock) :=
  fun a b => Option.instDecidableEq a b

/-- C4 counterexample: a single non-empty path of length 1 with pairwise
distinct (trivially) endpoint pairs.  The claim requires the declared end id
(here 1) to be bound to the path's last element, but the code only binds the
end id when the path has more than one node (line 351), so the returned
nodes mapping binds id 0 alone and looking up id 1 yields nothing. -/
theorem c4_end_id_missing_for_singleton_path :
    build_newly_indexed_path_dict [⟨(0, 1), [((0, 0, 0), "zxo")]⟩]
      = some ([(0, ((0, 0, 0), "zxo"))], [])
    ∧ dictLookup 1 [((0 : Int), (((0, 0, 0) : StandardCoord), "zxo"))] = none := by
  decide

/-- Concrete input for the C4 witness: two alternating paths of lengths 5
and 3 sharing endpoint id 1, with matching blocks on the shared endpoint. -/
def c4ExampleEdgePaths : List EdgePath :=
  [⟨(0, 1), [((0, 0, 0), "zxz"), ((1, 0, 0), "oxx"), ((3, 0, 0), "xzx"),
             ((4, 0, 0), "ozz"), ((6, 0, 0), "zzx")]⟩,
   ⟨(1, 2), [((6, 0, 0), "zzx"), ((7, 0, 0), "oxz"), ((9, 0, 0), "xxz")]⟩]

/-- C4 witness: the amended claim applied to `c4ExampleEdgePaths`, with all
hypotheses discharged by computation. -/
theorem c4_lattice_assembler_indexing_witness :
    ((∀ ep ∈ c4ExampleEdgePaths, ep.path_nodes.length % 2 = 1
        ∧ 3 ≤ ep.path_nodes.length ∧ ep.src_tgt_ids.1 ≠ ep.src_tgt_ids.2)
      ∧ (c4ExampleEdgePaths.map (fun ep => ep.src_tgt_ids)).Nodup
      ∧ (∀ ep ∈ c4ExampleEdgePaths, ∀ ep' ∈ c4ExampleEdgePaths,
          (ep.src_tgt_ids.1 = ep'.src_tgt_ids.1
            → ep.path_nodes.head? = ep'.path_nodes.head?)
          ∧ (ep.src_tgt_ids.1 = ep'.src_tgt_ids.2
            → ep.path_nodes.head? = ep'.path_nodes.getLast?)
          ∧ (ep.src_tgt_ids.2 = ep'.src_tgt_ids.2
            → ep.path_nodes.getLast? = ep'.path_nodes.getLast?)))
    ∧ (buildIndexedPaths c4ExampleEdgePaths
        = some (chainSpec (maxEndpointId c4ExampleEdgePaths + 1) c4ExampleEdgePaths)
      ∧ (∃ N E, build_newly_indexed_path_dict c4ExampleEdgePaths = some (N, E)
          ∧ ∀ j (hj : j < c4ExampleEdgePaths.length),
              dictLookup (c4ExampleEdgePaths.get ⟨j, hj⟩).src_tgt_ids.1 N
                  = (c4ExampleEdgePaths.get ⟨j, hj⟩).path_nodes.head?
              ∧ dictLookup (c4ExampleEdgePaths.get ⟨j, hj⟩).src_tgt_ids.2 N
                  = (c4ExampleEdgePaths.get ⟨j, hj⟩).path_nodes.getLast?
              ∧ ∀ t (ht : t < (c4ExampleEdgePaths.get ⟨j, hj⟩).path_nodes.length),
                  1 ≤ t → t ≤ (c4ExampleEdgePaths.get ⟨j, hj⟩).path_nodes.length - 2 →
                  maxEndpointId c4ExampleEdgePaths
                      < freshBase c4ExampleEdgePaths j + (t : Int) - 1
                  ∧ (t % 2 = 0 →
                      dictLookup (freshBase c4ExampleEdgePaths j + (t : Int) - 1) N
                        = some ((c4ExampleEdgePaths.get ⟨j, hj⟩).path_nodes.get ⟨t, ht⟩)))
      ∧ ∀ j j' (hj : j < c4ExampleEdgePaths.length)
          (hj' : j' < c4ExampleEdgePaths.length) (t t' : Nat),
          t < interCount (c4ExampleEdgePaths.get ⟨j, hj⟩) →
          t' < interCount (c4ExampleEdgePaths.get ⟨j', hj'⟩) →
          freshBase c4ExampleEdgePaths j + (t : Int)
            = freshBase c4ExampleEdgePaths j' + (t' : Int) →
          j = j' ∧ t = t') :=
  ⟨⟨by decide, by decide, by decide⟩,
   c4_lattice_assembler_indexing c4ExampleEdgePaths (by decide) (by decide) (by decide)⟩

/-! ### Claim C10 -/

/-- The fresh-id counter advances by the intermediate-node count for *every*
non-empty path, including paths whose indexed dictionary is later
overwritten. -/
theorem indexOnePath_counter (next_id : Int) (ep : EdgePath)
    (hne : ep.path_nodes ≠ []) :
    ∃ d, indexOnePath next_id ep = some (d, next_id + (interCount ep : Int)) := by
  obtain ⟨⟨s, e⟩, nodes⟩ := ep
  rcases nodes with _ | ⟨n0, tl⟩
  · exact absurd rfl hne
  · simp only [indexOnePath]
    rw [foldl_insertFresh_snd]
    rw [show (((n0 :: tl).drop 1).dropLast).length = interCount ⟨(s, e), n0 :: tl⟩ from
      @interCount_eq ⟨(s, e), n0 :: tl⟩]
    split
    · exact ⟨_, rfl⟩
    · exact ⟨_, rfl⟩

theorem dictLookup_foldChainNodes_none (k : Int) :
    ∀ (items : List (List (Int × StandardBlock))) (nodes : List (Int × StandardBlock)),
      (∀ item ∈ items, k ∉ (parityEntries true item).map Prod.fst) →
      dictLookup k nodes = none →
      dictLookup k (foldChainNodes items nodes) = none
  | [], _, _, h => h
  | item :: rest, nodes, hout, h => by
    refine dictLookup_foldChainNodes_none k rest (foldInsert (parityEntries true item) nodes)
      (fun it hit => hout it (List.mem_cons_of_mem _ hit)) ?_
    rw [dictLookup_foldInsert_not_mem k _ nodes (hout item (by simp))]
    exact h

/-- C10: when two edge paths carry the same (start, end) id pair, the second
silently overwrites the first: phase 1 keeps only the second path's indexed
dictionary — although the shared counter has already consumed the first
path's intermediate ids, which shifts the second path's fresh ids — and the
returned nodes mapping binds only the second path's blocks; every fresh id
consumed by the first path is absent from it. -/
theorem c10_duplicate_pair_overwrites (p1 p2 : EdgePath)
    (hne1 : p1.path_nodes ≠ [])
    (hodd2 : p2.path_nodes.length % 2 = 1) (hlen2 : 3 ≤ p2.path_nodes.length)
    (hse2 : p2.src_tgt_ids.1 ≠ p2.src_tgt_ids.2)
    (hpair : p1.src_tgt_ids = p2.src_tgt_ids) :
    buildIndexedPaths [p1, p2]
      = some [(p2.src_tgt_ids,
          pathDictSpec (maxEndpointId [p1, p2] + 1 + (interCount p1 : Int)) p2)]
    ∧ ∃ N E, build_newly_indexed_path_dict [p1, p2] = some (N, E)
      ∧ (∀ k : Int, maxEndpointId [p1, p2] < k →
          k < maxEndpointId [p1, p2] + 1 + (interCount p1 : Int) →
          dictLookup k N = none)
      ∧ dictLookup p2.src_tgt_ids.1 N = p2.path_nodes.head?
      ∧ dictLookup p2.src_tgt_ids.2 N = p2.path_nodes.getLast?
      ∧ ∀ t (ht : t < p2.path_nodes.length), 1 ≤ t → t ≤ p2.path_nodes.length - 2 →
          t % 2 = 0 →
          dictLookup (maxEndpointId [p1, p2] + 1 + (interCount p1 : Int) + (t : Int) - 1) N
            = some (p2.path_nodes.get ⟨t, ht⟩) := by
  have hB0 := maxEndpointId_nonneg [p1, p2]
  obtain ⟨hs2B, he2B⟩ := endpoint_le_maxEndpointId (show p2 ∈ [p1, p2] by simp)
  have hic1 : (0 : Int) ≤ (interCount p1 : Int) := by positivity
  have hs2b : p2.src_tgt_ids.1 < maxEndpointId [p1, p2] + 1 + (interCount p1 : Int) := by
    omega
  have he2b : p2.src_tgt_ids.2 < maxEndpointId [p1, p2] + 1 + (interCount p1 : Int) := by
    omega
  obtain ⟨d1, hd1⟩ := indexOnePath_counter (maxEndpointId [p1, p2] + 1) p1 hne1
  have hd2 := indexOnePath_eq (maxEndpointId [p1, p2] + 1 + (interCount p1 : Int)) p2
    (by omega) hs2b he2b hse2
  have hphase1 : buildIndexedPaths [p1, p2]
      = some [(p2.src_tgt_ids,
          pathDictSpec (maxEndpointId [p1, p2] + 1 + (interCount p1 : Int)) p2)] := by
    unfold buildIndexedPaths
    rw [buildIndexedPathsAux, hd1]
    show buildIndexedPathsAux [p2] (maxEndpointId [p1, p2] + 1 + (interCount p1 : Int))
        (dictInsert p1.src_tgt_ids d1 []) = _
    rw [buildIndexedPathsAux, hd2]
    show buildIndexedPathsAux []
        (maxEndpointId [p1, p2] + 1 + (interCount p1 : Int) + (interCount p2 : Int))
        (dictInsert p2.src_tgt_ids
          (pathDictSpec (maxEndpointId [p1, p2] + 1 + (interCount p1 : Int)) p2)
          (dictInsert p1.src_tgt_ids d1 [])) = _
    rw [hpair]
    show some (dictInsert p2.src_tgt_ids
        (pathDictSpec (maxEndpointId [p1, p2] + 1 + (interCount p1 : Int)) p2)
        [(p2.src_tgt_ids, d1)]) = _
    simp [dictInsert]
  have hnodup : ((pathDictSpec (maxEndpointId [p1, p2] + 1 + (interCount p1 : Int)) p2).map
      Prod.fst).Nodup :=
    pathDictSpec_keys_nodup _ _ (by omega) hs2b he2b hse2
  have hlenitem : ∀ item ∈ [pathDictSpec (maxEndpointId [p1, p2] + 1 + (interCount p1 : Int)) p2],
      item.length % 2 = 1 := by
    intro item h
    rw [List.mem_singleton] at h
    subst h
    rw [pathDictSpec_length _ _ (by omega)]
    exact hodd2
  obtain ⟨E, hE⟩ := latticeAux_characterization
    [pathDictSpec (maxEndpointId [p1, p2] + 1 + (interCount p1 : Int)) p2] [] [] hlenitem
  have hbuild : build_newly_indexed_path_dict [p1, p2]
      = some (foldChainNodes
          [pathDictSpec (maxEndpointId [p1, p2] + 1 + (interCount p1 : Int)) p2] [], E) := by
    unfold build_newly_indexed_path_dict
    rw [hphase1]
    exact hE
  have hnodup_items : ∀ item ∈
      [pathDictSpec (maxEndpointId [p1, p2] + 1 + (interCount p1 : Int)) p2],
      (item.map Prod.fst).Nodup := by
    intro item h
    rw [List.mem_singleton] at h
    subst h
    exact hnodup
  refine ⟨hphase1, _, E, hbuild, ?_, ?_, ?_, ?_⟩
  · -- absence of the first path's fresh ids
    intro k hk1 hk2
    refine dictLookup_foldChainNodes_none k _ [] ?_ rfl
    intro item h
    rw [List.mem_singleton] at h
    subst h
    intro hmem
    rcases mem_keys_exists_val k _ hmem with ⟨v, hv⟩
    have hv2 := mem_of_mem_parityEntries hv
    rcases pathDictSpec_mem (by omega) hv2 with ⟨hk, _⟩ | ⟨hb1, hb2⟩ | ⟨hk, _⟩
    · omega
    · omega
    · omega
  · -- start id binds the second path's first block
    have hh : ∃ v, p2.path_nodes.head? = some v := by
      rcases hx : p2.path_nodes with _ | ⟨a, t⟩
      · rw [hx] at hlen2
        simp at hlen2
      · exact ⟨a, rfl⟩
    obtain ⟨v, hv⟩ := hh
    rw [hv]
    refine dictLookup_foldChainNodes_some _ v _ [] hnodup_items ?_ ?_
    · intro item h v' hmem
      rw [List.mem_singleton] at h
      subst h
      have hmem2 := mem_of_mem_parityEntries hmem
      rcases pathDictSpec_mem (by omega) hmem2 with ⟨hk, hval⟩ | ⟨hb1, hb2⟩ | ⟨hk, hval⟩
      · rw [hv] at hval
        exact (Option.some.inj hval).symm
      · omega
      · exact absurd hk hse2
    · exact Or.inl ⟨_, by simp,
        pathDictSpec_start_mem (maxEndpointId [p1, p2] + 1 + (interCount p1 : Int)) p2
          (by omega) hv⟩
  · -- end id binds the second path's last block
    have hl : ∃ v, p2.path_nodes.getLast? = some v := by
      have hne : p2.path_nodes ≠ [] := by
        intro hx
        rw [hx] at hlen2
        simp at hlen2
      exact ⟨p2.path_nodes.getLast hne, List.getLast?_eq_getLast _ hne⟩
    obtain ⟨v, hv⟩ := hl
    rw [hv]
    refine dictLookup_foldChainNodes_some _ v _ [] hnodup_items ?_ ?_
    · intro item h v' hmem
      rw [List.mem_singleton] at h
      subst h
      have hmem2 := mem_of_mem_parityEntries hmem
      rcases pathDictSpec_mem (by omega) hmem2 with ⟨hk, hval⟩ | ⟨hb1, hb2⟩ | ⟨hk, hval⟩
      · exact absurd hk.symm hse2
      · omega
      · rw [hv] at hval
        exact (Option.some.inj hval).symm
    · exact Or.inl ⟨_, by simp,
        pathDictSpec_end_mem (maxEndpointId [p1, p2] + 1 + (interCount p1 : Int)) p2
          (by omega) hodd2 hv⟩
  · -- the second path's even intermediates under shifted fresh ids
    intro t ht ht1 ht2 hte
    refine dictLookup_foldChainNodes_some _ _ _ [] hnodup_items ?_ ?_
    · intro item h v' hmem
      rw [List.mem_singleton] at h
      subst h
      have hmem2 := mem_of_mem_parityEntries hmem
      rcases pathDictSpec_mem (by omega) hmem2 with ⟨hk, hval⟩ | ⟨hb1, hb2⟩ | ⟨hk, hval⟩
      · omega
      · have hv1 := dictLookup_mem_of_nodup _ _ _ hnodup hmem2
        have hv2 := dictLookup_mem_of_nodup _ _ _ hnodup
          (mem_of_mem_parityEntries
            (pathDictSpec_fresh_mem (maxEndpointId [p1, p2] + 1 + (interCount p1 : Int)) p2 t
            (by omega) hodd2 ht1 ht2 hte ht))
        rw [hv1] at hv2
        exact Option.some.inj hv2
      · omega
    · exact Or.inl ⟨_, by simp,
        pathDictSpec_fresh_mem (maxEndpointId [p1, p2] + 1 + (interCount p1 : Int)) p2 t
          (by omega) hodd2 ht1 ht2 hte ht⟩

/-- Concrete inputs for the C10 witness: two paths with the same (0, 1)
endpoint pair but different blocks. -/
def c10ExampleP1 : EdgePath :=
  ⟨(0, 1), [((0, 0, 0), "zxz"), ((1, 0, 0), "oxx"), ((3, 0, 0), "xzx")]⟩

/-- Second path of the C10 witness, sharing the (0, 1) pair. -/
def c10ExampleP2 : EdgePath :=
  ⟨(0, 1), [((0, 3, 0), "xzz"), ((1, 3, 0), "ozz"), ((3, 3, 0), "zzx")]⟩

/-- C10 witness: the overwrite behaviour at the concrete duplicate pair. -/
theorem c10_duplicate_pair_overwrites_witness :
    (c10ExampleP1.path_nodes ≠ []
      ∧ c10ExampleP2.path_nodes.length % 2 = 1
      ∧ 3 ≤ c10ExampleP2.path_nodes.length
      ∧ c10ExampleP2.src_tgt_ids.1 ≠ c10ExampleP2.src_tgt_ids.2
      ∧ c10ExampleP1.src_tgt_ids = c10ExampleP2.src_tgt_ids)
    ∧ (buildIndexedPaths [c10ExampleP1, c10ExampleP2]
        = some [(c10ExampleP2.src_tgt_ids,
            pathDictSpec (maxEndpointId [c10ExampleP1, c10ExampleP2] + 1
              + (interCount c10ExampleP1 : Int)) c10ExampleP2)]
      ∧ ∃ N E, build_newly_indexed_path_dict [c10ExampleP1, c10ExampleP2] = some (N, E)
        ∧ (∀ k : Int, maxEndpointId [c10ExampleP1, c10ExampleP2] < k →
            k < maxEndpointId [c10ExampleP1, c10ExampleP2] + 1
              + (interCount c10ExampleP1 : Int) →
            dictLookup k N = none)
        ∧ dictLookup c10ExampleP2.src_tgt_ids.1 N = c10ExampleP2.path_nodes.head?
        ∧ dictLookup c10ExampleP2.src_tgt_ids.2 N = c10ExampleP2.path_nodes.getLast?
        ∧ ∀ t (ht : t < c10ExampleP2.path_nodes.length),
            1 ≤ t → t ≤ c10ExampleP2.path_nodes.length - 2 → t % 2 = 0 →
            dictLookup (maxEndpointId [c10ExampleP1, c10ExampleP2] + 1
                + (interCount c10ExampleP1 : Int) + (t : Int) - 1) N
              = some (c10ExampleP2.path_nodes.get ⟨t, ht⟩)) :=
  ⟨⟨by decide, by decide, by decide, by decide, by decide⟩,
   c10_duplicate_pair_overwrites c10ExampleP1 c10ExampleP2
     (by decide) (by decide) (by decide) (by decide) (by decide)⟩
